import Mathlib

/-!
Formal model of the core algorithms of the mark-latex application
(`src/main.py`): the text wrapping engine used by `render_latex`
(`wrap_text`, lines 625-700), page rotation normalization
(`get_normalized_doc`, lines 445-500), the export compositor
(`export_pdf_with_marks`, lines 888-979), sidecar persistence
(`save_sidecar` / `load_sidecar_data`, lines 592-609), per-page mark
defaulting (`render_current_page`, lines 783-791) and the undo log
(`push_undo_action` / `undo_last_action`, lines 1093-1125).

Python floats are modelled as rationals, Python strings as `List Char`
(wrapped in `String` at the interface), Python dicts keyed by page index
as association lists, and the mutable mark dictionaries shared between
the store and the undo log as a heap (`List MarkR`) addressed by index.
-/

namespace MarkLatex

/-- The characters for which Python's `str.isspace()` returns `True`
(used by `wrap_text` both for the tokenizer's whitespace test and,
as the same character class, by `str.rstrip()`). -/
def pyIsSpace (c : Char) : Bool :=
  c == ' ' || c == '\t' || c == '\n' || c == '\x0b' || c == '\x0c' || c == '\r' ||
  c == '\x1c' || c == '\x1d' || c == '\x1e' || c == '\x1f' || c == '\x85' || c == '\xa0' ||
  c == '\u1680' || c == '\u2000' || c == '\u2001' || c == '\u2002' || c == '\u2003' ||
  c == '\u2004' || c == '\u2005' || c == '\u2006' || c == '\u2007' || c == '\u2008' ||
  c == '\u2009' || c == '\u200a' || c == '\u2028' || c == '\u2029' || c == '\u202f' ||
  c == '\u205f' || c == '\u3000'

/-- The line-break characters of Python's `str.splitlines()`
(`\r\n` is additionally treated as a single break). -/
def isBreak (c : Char) : Bool :=
  c == '\n' || c == '\r' || c == '\x0b' || c == '\x0c' ||
  c == '\x1c' || c == '\x1d' || c == '\x1e' || c == '\x85' ||
  c == '\u2028' || c == '\u2029'

/-- The punctuation set of `wrap_text` (line 626):
`punctuation = ".,;:!?，。；：！？"`. -/
def isPunct (c : Char) : Bool :=
  c == '.' || c == ',' || c == ';' || c == ':' || c == '!' || c == '?' ||
  c == '，' || c == '。' || c == '；' || c == '：' || c == '！' || c == '？'

/-- Python `str.splitlines()`, accumulator-passing: `acc` holds the
characters of the current line in reverse; `skipLf` records that the
previous character was a `\r`, so that an immediately following `\n`
belongs to the same `\r\n` break.  A trailing line break does not
produce a final empty line. -/
def splitlinesAux : Bool → List Char → List Char → List (List Char)
  | _, acc, [] => if acc = [] then [] else [acc.reverse]
  | skipLf, acc, c :: rest =>
    if skipLf = true ∧ c = '\n' then splitlinesAux false acc rest
    else if c = '\r' then acc.reverse :: splitlinesAux true [] rest
    else if isBreak c then acc.reverse :: splitlinesAux false [] rest
    else splitlinesAux false (c :: acc) rest

/-- Python `str.splitlines()` on a character list. -/
def splitlines (l : List Char) : List (List Char) := splitlinesAux false [] l

/-- State of the tokenizer loop of `wrap_line` (lines 629-659).  The
Python `while` loop is unrolled into explicit states: `main cur`
accumulates a plain token into `current`; `spaces` is the inner
`while ... isspace()` run-skipping loop; `span acc` scans a `$...$`
span whose closing `$` is known to exist (`line.find("$", i+1) != -1`);
`punct acc` greedily appends trailing punctuation to a completed span. -/
inductive TokState where
  | main (cur : List Char)
  | spaces
  | span (acc : List Char)
  | punct (acc : List Char)

/-- One faithful pass of the tokenizer loop of `wrap_line`
(lines 629-659).  In state `main cur`: a whitespace character flushes
`current`, emits a single `" "` token and skips the whitespace run; a
`"$"` flushes `current` and, when a closing `"$"` exists in the rest of
the line, scans the span (state `span`) and then its attached
punctuation (state `punct`), otherwise `"$"` starts a fresh `current`;
any other character is appended to `current`. -/
def tokRun : TokState → List Char → List (List Char)
  | .main cur, [] => if cur = [] then [] else [cur]
  | .spaces, [] => []
  | .span acc, [] => [acc]
  | .punct acc, [] => [acc]
  | .main cur, ch :: rest =>
    if pyIsSpace ch then
      (if cur = [] then [] else [cur]) ++ [' '] :: tokRun .spaces rest
    else if ch = '$' then
      (if cur = [] then [] else [cur]) ++
        (if rest.contains '$' then tokRun (.span ['$']) rest
         else tokRun (.main ['$']) rest)
    else tokRun (.main (cur ++ [ch])) rest
  | .spaces, ch :: rest =>
    if pyIsSpace ch then tokRun .spaces rest
    else if ch = '$' then
      if rest.contains '$' then tokRun (.span ['$']) rest
      else tokRun (.main ['$']) rest
    else tokRun (.main [ch]) rest
  | .span acc, ch :: rest =>
    if ch = '$' then tokRun (.punct (acc ++ ['$'])) rest
    else tokRun (.span (acc ++ [ch])) rest
  | .punct acc, ch :: rest =>
    if isPunct ch then tokRun (.punct (acc ++ [ch])) rest
    else if pyIsSpace ch then acc :: [' '] :: tokRun .spaces rest
    else if ch = '$' then
      acc :: (if rest.contains '$' then tokRun (.span ['$']) rest
              else tokRun (.main ['$']) rest)
    else acc :: tokRun (.main [ch]) rest

/-- The token list of one line (`tokens` after the first loop of
`wrap_line`). -/
def tokenize (l : List Char) : List (List Char) := tokRun (.main []) l

/-- Python `str.rstrip()` (strips trailing `isspace` characters). -/
def rstrip (l : List Char) : List Char := (l.reverse.dropWhile pyIsSpace).reverse

/-- `current_line.endswith(" ")`. -/
def endsSp (l : List Char) : Bool := l.getLast? == some ' '

/-- The greedy line-fill loop of `wrap_line` (lines 661-695), with the
state variables `current_line` (`cur`), `current_len` (`n`) and `lines`
carried explicitly.  A `" "` token is appended only to a non-empty line
not already ending in a space and only if one more character still fits,
otherwise the line is flushed (rstripped); a non-space token starts an
empty line directly, and otherwise is appended after a conceptual
single-space separator unless that would exceed `width`, in which case
the line is flushed first and the token starts the new line. -/
def fillAux (width : Nat) : List Char → Nat → List (List Char) → List (List Char) →
    List (List Char)
  | cur, _, lines, [] => if cur = [] then lines else lines ++ [rstrip cur]
  | cur, n, lines, t :: ts =>
    if t = [' '] then
      if cur ≠ [] ∧ endsSp cur = false then
        if n + 1 > width then fillAux width [] 0 (lines ++ [rstrip cur]) ts
        else fillAux width (cur ++ [' ']) (n + 1) lines ts
      else fillAux width cur n lines ts
    else
      if cur = [] then fillAux width t t.length lines ts
      else
        let sp : List Char := if endsSp cur then [] else [' ']
        if n + (sp.length + t.length) > width then
          fillAux width t t.length (lines ++ [rstrip cur]) ts
        else fillAux width (cur ++ sp ++ t) (n + (sp.length + t.length)) lines ts

/-- `wrap_line` (lines 628-695): tokenize one line, then greedily fill. -/
def wrapLine (width : Nat) (l : List Char) : List (List Char) :=
  fillAux width [] 0 [] (tokenize l)

/-- `"\n".join(...)`. -/
def joinNl : List (List Char) → List Char
  | [] => []
  | [l] => l
  | l :: ls => l ++ '\n' :: joinNl ls

/-- `wrap_text` (lines 625-700): split the raw text into lines, wrap
each line independently, and rejoin everything with `"\n"`. -/
def wrapText (t : String) (width : Nat) : String :=
  ⟨joinNl ((splitlines t.data).flatMap (fun l => wrapLine width l))⟩

/-- A token of plain text: non-empty, contains no whitespace and no
`$` (rule (3) of the tokenizer). -/
def PureTok (t : List Char) : Prop :=
  t ≠ [] ∧ ∀ c ∈ t, pyIsSpace c = false ∧ c ≠ '$'

/-- A plain token that begins with an unmatched `$` (the `find` at line
647 returned `-1`): a `$` followed by whitespace-free, `$`-free text. -/
def DollarTok (t : List Char) : Prop :=
  ∃ tl, t = '$' :: tl ∧ ∀ c ∈ tl, pyIsSpace c = false ∧ c ≠ '$'

/-- A math token: a `$...$` span whose body has no `$`, followed by a
run of attached punctuation characters (lines 648-654). -/
def MathTok (t : List Char) : Prop :=
  ∃ mid pr, t = '$' :: (mid ++ '$' :: pr) ∧ '$' ∉ mid ∧ ∀ c ∈ pr, isPunct c = true

/-- A non-space token: pure, math, or dollar-headed. -/
def NTok (t : List Char) : Prop := PureTok t ∨ MathTok t ∨ DollarTok t

/-- Well-formedness of the non-space tokens of one line, in order: every
token is pure, math, or dollar-headed, and after a dollar-headed token
(which meant no further `$` on the line) only pure tokens follow. -/
def nsOk : List (List Char) → Prop
  | [] => True
  | t :: ts => ((PureTok t ∨ MathTok t) ∧ nsOk ts) ∨ (DollarTok t ∧ ∀ u ∈ ts, PureTok u)

/-- Invariant tying a tokenizer state to the rest of the input: a
`main` buffer is empty, pure, or an unmatched-dollar token (in which
case no `$` remains); a `span` accumulator is an open span whose close
exists in the rest; a `punct` accumulator is a completed math token. -/
def StOk : TokState → List Char → Prop
  | .main cur, l => cur = [] ∨ PureTok cur ∨ (DollarTok cur ∧ '$' ∉ l)
  | .spaces, _ => True
  | .span acc, l => (∃ mid, acc = '$' :: mid ∧ '$' ∉ mid) ∧ '$' ∈ l
  | .punct acc, _ => MathTok acc

/-- The non-space tokens of a token list. -/
def dropSpaceToks (toks : List (List Char)) : List (List Char) :=
  toks.filter (fun t => t ≠ [' '])

/-- Tokens joined with a single separating space (the shape of a line
built by the greedy fill). -/
def joinSp : List (List Char) → List Char
  | [] => []
  | [t] => t
  | t :: ts => t ++ ' ' :: joinSp ts

/-- Non-space tokens with a `" "` token between each two consecutive
ones (the token list the tokenizer produces for a built line). -/
def seps : List (List Char) → List (List Char)
  | [] => []
  | [t] => [t]
  | t :: ts => t :: [' '] :: seps ts

/-- The continuation of `seps` after its first token: a `" "` token
before each remaining token. -/
def sepsTail : List (List Char) → List (List Char)
  | [] => []
  | t :: ts => [' '] :: seps (t :: ts)

/-- `t` occurs contiguously inside `l`. -/
def SegIn (t l : List Char) : Prop := ∃ u v, l = u ++ t ++ v

/-- `l` contains no line-break character. -/
def noBreak (l : List Char) : Prop := ∀ c ∈ l, isBreak c = false

/-- The pending character buffer of a tokenizer state. -/
def stBuf : TokState → List Char
  | .main cur => cur
  | .spaces => []
  | .span acc => acc
  | .punct acc => acc

/-- What holds of every line the greedy fill emits when the tokens came
from tokenizing a line whose token list is `T0`: the line is non-empty,
it fits in the width budget unless it is a single (over-long) token of
`T0` kept whole, and re-wrapping it at the same width reproduces it. -/
def EmitOk (w : Nat) (T0 : List (List Char)) (l : List Char) : Prop :=
  l ≠ [] ∧ (l.length ≤ w ∨ l ∈ T0) ∧ wrapLine w l = [l]

/-- A `fitz.Rect` with finite coordinates (PDF points, floats modelled
as rationals). -/
structure PRect where
  x0 : Rat
  y0 : Rat
  x1 : Rat
  y1 : Rat
deriving DecidableEq

/-- `Rect.width = x1 - x0`. -/
def PRect.width (r : PRect) : Rat := r.x1 - r.x0

/-- `Rect.height = y1 - y0`. -/
def PRect.height (r : PRect) : Rat := r.y1 - r.y0

/-- `total_rect |= m_rect`: `fitz.Rect.include_rect` of finite rects is
the componentwise min of the min-corners and max of the max-corners. -/
def PRect.union (a b : PRect) : PRect :=
  ⟨min a.x0 b.x0, min a.y0 b.y0, max a.x1 b.x1, max a.y1 b.y1⟩

/-- The position of one mark on a page (`m['x']`, `m['y']`). -/
structure MarkPos where
  x : Rat
  y : Rat
deriving DecidableEq

/-- The point-space rectangle of a rendered mark
(`fitz.Rect(m['x'], m['y'], m['x'] + w, m['y'] + h)`, line 923) where
`w`/`h` is the rendered pixel size converted via `* 72 / RENDER_DPI`. -/
def markRect (m : MarkPos) (w h : Rat) : PRect :=
  ⟨m.x, m.y, m.x + w, m.y + h⟩

/-- The geometric outcome of one iteration of the per-page loop of
`export_pdf_with_marks` (lines 897-970): the created page's dimensions,
the computed offsets, the destination rectangle of the source page
content, and the placed rectangle of every rendered mark. -/
structure ComposedPage where
  pageWidth : Rat
  pageHeight : Rat
  offsetX : Rat
  offsetY : Rat
  destRect : PRect
  markRects : List PRect
deriving DecidableEq

/-- One page of `export_pdf_with_marks` (lines 897-970).  `render`
returns the point-space footprint of a mark, or `none` when
rasterization fails (`pix.isNull()`), in which case the mark is skipped.
`total_rect` starts as the normalized source page's rectangle and is
expanded by union with every rendered mark rectangle; a negative origin
of the union (and only that) induces the offset, the new page is sized
to the union's width and height, and the offset is applied to the
source-content destination rectangle and to every mark rectangle. -/
def composePage (sourceRect : PRect) (marks : List MarkPos)
    (render : MarkPos → Option (Rat × Rat)) : ComposedPage :=
  let rendered := marks.filterMap (fun m => (render m).map (fun wh => markRect m wh.1 wh.2))
  let totalRect := rendered.foldl PRect.union sourceRect
  let offsetX := if totalRect.x0 < 0 then -totalRect.x0 else 0
  let offsetY := if totalRect.y0 < 0 then -totalRect.y0 else 0
  { pageWidth := totalRect.width
    pageHeight := totalRect.height
    offsetX := offsetX
    offsetY := offsetY
    destRect := ⟨offsetX, offsetY, offsetX + sourceRect.width, offsetY + sourceRect.height⟩
    markRects := rendered.map (fun r => ⟨r.x0 + offsetX, r.y0 + offsetY,
                                         r.x1 + offsetX, r.y1 + offsetY⟩) }

/-- A `fitz` page as seen by `get_normalized_doc`: the mediabox
dimensions and the `/Rotate` value.  PyMuPDF normalizes a page's
`rotation` to one of 0, 90, 180, 270. -/
structure FPage where
  mediaW : Rat
  mediaH : Rat
  rotation : Int
deriving DecidableEq

/-- Width of `page.rect`, the visual rectangle: width and height are
swapped when the rotation is 90 or 270. -/
def FPage.rectW (p : FPage) : Rat :=
  if p.rotation % 180 = 90 then p.mediaH else p.mediaW

/-- Height of `page.rect`, the visual rectangle. -/
def FPage.rectH (p : FPage) : Rat :=
  if p.rotation % 180 = 90 then p.mediaW else p.mediaH

/-- `get_normalized_doc` (lines 445-500), page geometry.  If no page has
`rotation % 360 != 0` the source document is returned unchanged;
otherwise a new document is built where each page is created by
`clean_doc.new_page(width=vis_rect.width, height=vis_rect.height)`
(so it has rotation 0 and the source page's visual dimensions) in both
the `r == 0` and the `r != 0` branches of the loop.  The vector content
placement (`show_pdf_page` with `rotate=-r` after temporarily resetting
the source rotation to 0) does not affect the page geometry and is not
modelled. -/
def get_normalized_doc (doc : List FPage) : List FPage :=
  if doc.any (fun p => p.rotation % 360 ≠ 0) then
    doc.map (fun p => { mediaW := p.rectW, mediaH := p.rectH, rotation := 0 })
  else doc

/-- A mark dictionary (`{"text": ..., "x": ..., "y": ..., "font": ...,
"size": ..., "width": ...}`).  The `font`/`size`/`width` keys may be
absent in sidecars written by earlier schema versions, hence `Option`. -/
structure MarkR where
  text : String
  x : Rat
  y : Rat
  font : Option String
  size : Option Int
  width : Option Int
deriving DecidableEq

/-- `DEFAULT_FONT = "Fira Code"` (line 24). -/
def DEFAULT_FONT : String := "Fira Code"

/-- `DEFAULT_SIZE = 10` (line 25). -/
def DEFAULT_SIZE : Int := 10

/-- `DEFAULT_WRAP = 30` (line 26). -/
def DEFAULT_WRAP : Int := 30

/-- The defaulting performed by `render_current_page` (lines 783-788) on
each mark of the page being rendered: `if 'font' not in m: m['font'] =
DEFAULT_FONT`, and likewise for `size` and `width`. -/
def ensureDefaults (m : MarkR) : MarkR :=
  { m with font := some (m.font.getD DEFAULT_FONT)
           size := some (m.size.getD DEFAULT_SIZE)
           width := some (m.width.getD DEFAULT_WRAP) }

/-- The mark list of the current page after `render_current_page`
applied its defaulting loop (lines 784-788). -/
def render_page_marks (marks : List MarkR) : List MarkR :=
  marks.map ensureDefaults

/-- Decimal digit of a value below 10 (Python `str` of one digit). -/
def digitChar : Nat → Char
  | 0 => '0' | 1 => '1' | 2 => '2' | 3 => '3' | 4 => '4'
  | 5 => '5' | 6 => '6' | 7 => '7' | 8 => '8' | _ => '9'

/-- Numeric value of a decimal digit character. -/
def digitVal (c : Char) : Nat := c.toNat - 48

/-- Most-significant-first decimal digits of a natural number, `acc`
appended (Python `str(n)` for a non-negative `int`, as produced by
`json.dump` for integer dictionary keys). -/
def natToDecimalAux (n : Nat) (acc : List Char) : List Char :=
  if n < 10 then digitChar n :: acc
  else natToDecimalAux (n / 10) (digitChar (n % 10) :: acc)
termination_by n
decreasing_by exact Nat.div_lt_self (by omega) (by omega)

/-- Python `str(n)` for a non-negative `int`. -/
def natToDecimal (n : Nat) : String := ⟨natToDecimalAux n []⟩

/-- Python `int(k)` restricted to the canonical decimal strings that
`json.dump` produces for non-negative integer keys (`int` additionally
accepts signs, surrounding whitespace and underscores, none of which
occur in such keys); `none` models the `ValueError` that the
surrounding `try`/`except` of `load_sidecar_data` catches. -/
def pyParseNat (s : List Char) : Option Nat :=
  if s ≠ [] ∧ s.all Char.isDigit then
    some (s.foldl (fun a c => 10 * a + digitVal c) 0)
  else none

/-- The JSON object written by `save_sidecar` (lines 592-600):
`{"pdf_path": ..., "all_marks": ...}`, where `json.dump` has serialized
the integer page keys of `all_marks` as decimal strings.  The mark
dictionaries themselves (strings and finite floats) round-trip through
JSON unchanged and are carried through as values. -/
structure Sidecar where
  pdf_path : String
  all_marks : List (String × List MarkR)
deriving DecidableEq

/-- `save_sidecar` (lines 592-600): serialize the page-index keys. -/
def save_sidecar (pdfPath : String) (allMarks : List (Nat × List MarkR)) : Sidecar :=
  { pdf_path := pdfPath
    all_marks := allMarks.map (fun e => (natToDecimal e.1, e.2)) }

/-- `load_sidecar_data` (lines 602-609):
`self.all_marks = {int(k): v for k, v in data.get("all_marks", {}).items()}`
inside `try`/`except`, where any failure (in particular a key that
`int` rejects) leaves `self.all_marks = {}`. -/
def load_sidecar_data (s : Sidecar) : List (Nat × List MarkR) :=
  if s.all_marks.all (fun e => (pyParseNat e.1.data).isSome) then
    s.all_marks.map (fun e => ((pyParseNat e.1.data).getD 0, e.2))
  else []

/-- An entry of `self.undo_stack` (a Python dict with a `"type"` key).
`add` and `edit`/`move` hold a *reference* to the shared mark dict
(modelled as a heap index), `delete` holds the copy `dict(mark_data)`
made at line 850, `edit` holds the `before_state = dict(self.mark_data)`
snapshot of line 245, `move` holds the `(x, y)` pair of line 266. -/
inductive UndoAction where
  | add (page : Nat) (mark : Nat)
  | delete (page : Nat) (mark : MarkR)
  | edit (mark : Nat) (before : MarkR)
  | move (mark : Nat) (before : Rat × Rat)
deriving DecidableEq

/-- The application state touched by the undo log: the heap of shared
mutable mark dictionaries (an index is a Python object reference),
`self.all_marks` (page index to list of references), the page currently
shown, and `self.undo_stack` (oldest first, as in the Python list). -/
structure AppState where
  heap : List MarkR
  allMarks : List (Nat × List Nat)
  currentPageIdx : Nat
  undoStack : List UndoAction
deriving DecidableEq

/-- `self.all_marks.get(p)` on the association list. -/
def lookupPage (am : List (Nat × List Nat)) (p : Nat) : Option (List Nat) :=
  (am.find? (fun e => e.1 == p)).map (fun e => e.2)

/-- Python `mark in page_list` for dictionaries: membership by *value*
equality of the referenced dicts. -/
def memVal (heap : List MarkR) (ids : List Nat) (mid : Nat) : Bool :=
  ids.any (fun j => heap.get? j == heap.get? mid)

/-- Python `page_list.remove(mark)`: drop the first value-equal dict. -/
def removeVal (heap : List MarkR) (mid : Nat) : List Nat → List Nat
  | [] => []
  | j :: js => if heap.get? j == heap.get? mid then js else j :: removeVal heap mid js

/-- Replace the value stored for page `p` in the association list. -/
def setPage (am : List (Nat × List Nat)) (p : Nat) (v : List Nat) :
    List (Nat × List Nat) :=
  am.map (fun e => if e.1 == p then (e.1, v) else e)

/-- `self.all_marks.setdefault(page, []).append(newId)`. -/
def setdefaultAppend (am : List (Nat × List Nat)) (p : Nat) (newId : Nat) :
    List (Nat × List Nat) :=
  if am.any (fun e => e.1 == p) then
    am.map (fun e => if e.1 == p then (e.1, e.2 ++ [newId]) else e)
  else am ++ [(p, [newId])]

/-- `push_undo_action` (lines 1093-1097): append, then drop the oldest
entry when the stack exceeds `self.undo_limit`. -/
def push_undo_action (limit : Nat) (stack : List UndoAction) (a : UndoAction) :
    List UndoAction :=
  let s := stack ++ [a]
  if s.length > limit then s.drop 1 else s

/-- `undo_last_action` (lines 1099-1125).  An empty stack is a no-op.
Otherwise the most recent action is popped and reversed:
`add` removes the first value-equal mark from the recorded page (if
present); `delete` re-appends the stored copy as a fresh dict;
`edit` overwrites the referenced mark with the `before` snapshot *only
if a value-equal mark is found in the list of the currently shown page*
(`self.all_marks.get(self.current_page_idx, [])`, line 1118);
`move` writes the stored `(x, y)` back unconditionally. -/
def undo_last_action (s : AppState) : AppState :=
  match s.undoStack.getLast? with
  | none => s
  | some a =>
    let stack' := s.undoStack.dropLast
    match a with
    | .add page mid =>
      match lookupPage s.allMarks page with
      | some ids =>
        if memVal s.heap ids mid then
          { s with allMarks := setPage s.allMarks page (removeVal s.heap mid ids)
                   undoStack := stack' }
        else { s with undoStack := stack' }
      | none => { s with undoStack := stack' }
    | .delete page m =>
      { s with heap := s.heap ++ [m]
               allMarks := setdefaultAppend s.allMarks page s.heap.length
               undoStack := stack' }
    | .edit mid before =>
      if memVal s.heap ((lookupPage s.allMarks s.currentPageIdx).getD []) mid then
        { s with heap := s.heap.set mid before, undoStack := stack' }
      else { s with undoStack := stack' }
    | .move mid before =>
      { s with heap := match s.heap.get? mid with
                       | some m => s.heap.set mid { m with x := before.1, y := before.2 }
                       | none => s.heap
               undoStack := stack' }

theorem rotation_eq_zero (r : Int)
    (h : r = 0 ∨ r = 90 ∨ r = 180 ∨ r = 270) (h360 : r % 360 = 0) : r = 0 := by
  rcases h with rfl | rfl | rfl | rfl <;> omega

/-- Claim C2: `normalize` maps every source document (whose page
rotations the pdf library normalizes to 0/90/180/270) to a document in
which every page's rotation is exactly 0 and every page's point
dimensions equal the source page's visual (rotation-applied) rectangle
dimensions, on the fast path (no non-zero rotation mod 360, document
returned unchanged) as well as on the rebuild path. -/
theorem claim_C2 (doc : List FPage)
    (hrot : ∀ p ∈ doc, p.rotation = 0 ∨ p.rotation = 90 ∨
      p.rotation = 180 ∨ p.rotation = 270) :
    (get_normalized_doc doc).length = doc.length ∧
    ∀ i, i < doc.length →
      ∃ p q, doc[i]? = some p ∧ (get_normalized_doc doc)[i]? = some q ∧
        q.rotation = 0 ∧ q.rectW = p.rectW ∧ q.rectH = p.rectH := by
  unfold get_normalized_doc
  split
  · refine ⟨by simp, fun i hi => ?_⟩
    refine ⟨doc[i], ⟨doc[i].rectW, doc[i].rectH, 0⟩, List.getElem?_eq_getElem hi, ?_, rfl, ?_, ?_⟩
    · rw [List.getElem?_map, List.getElem?_eq_getElem hi, Option.map_some']
    · show (if (0 : Int) % 180 = 90 then _ else _) = _
      rw [if_neg (by decide)]
    · show (if (0 : Int) % 180 = 90 then _ else _) = _
      rw [if_neg (by decide)]
  · rename_i h
    rw [List.any_eq_true] at h
    push_neg at h
    refine ⟨rfl, fun i hi => ?_⟩
    refine ⟨doc[i], doc[i], List.getElem?_eq_getElem hi, List.getElem?_eq_getElem hi, ?_, rfl, rfl⟩
    have hmem : doc[i] ∈ doc := List.getElem_mem hi
    have h0 : doc[i].rotation % 360 = 0 := by
      have := h _ hmem
      simpa using this
    exact rotation_eq_zero _ (hrot _ hmem) h0

/-- Witness for C2 at a one-page document rotated by 90 degrees. -/
theorem claim_C2_witness :
    (get_normalized_doc [⟨100, 50, 90⟩]).length = [(⟨100, 50, 90⟩ : FPage)].length ∧
    ∀ i, i < [(⟨100, 50, 90⟩ : FPage)].length →
      ∃ p q, [(⟨100, 50, 90⟩ : FPage)][i]? = some p ∧
        (get_normalized_doc [⟨100, 50, 90⟩])[i]? = some q ∧
        q.rotation = 0 ∧ q.rectW = p.rectW ∧ q.rectH = p.rectH :=
  claim_C2 [⟨100, 50, 90⟩] (by decide)

theorem list_map_self {α : Type} (l : List α) (f : α → α) (h : ∀ a ∈ l, f a = a) :
    l.map f = l := by
  induction l with
  | nil => rfl
  | cons a l ih =>
    rw [List.map_cons, h a (List.mem_cons_self a l), ih fun b hb => h b (List.mem_cons_of_mem a hb)]

theorem natToDecimalAux_eq (n : Nat) (acc : List Char) :
    natToDecimalAux n acc =
      if n < 10 then digitChar n :: acc
      else natToDecimalAux (n / 10) (digitChar (n % 10) :: acc) := by
  rw [natToDecimalAux]

theorem natToDecimalAux_eq_append (n : Nat) :
    ∀ acc, natToDecimalAux n acc = natToDecimalAux n [] ++ acc := by
  induction n using Nat.strong_induction_on with
  | _ n ih =>
    intro acc
    by_cases h : n < 10
    · rw [natToDecimalAux_eq n acc, natToDecimalAux_eq n [], if_pos h, if_pos h]
      rfl
    · have hd : n / 10 < n := Nat.div_lt_self (by omega) (by omega)
      rw [natToDecimalAux_eq n acc, natToDecimalAux_eq n [], if_neg h, if_neg h,
        ih (n / 10) hd (digitChar (n % 10) :: acc), ih (n / 10) hd [digitChar (n % 10)]]
      simp

theorem digitChar_isDigit : ∀ k, (digitChar k).isDigit = true
  | 0 => rfl
  | 1 => rfl
  | 2 => rfl
  | 3 => rfl
  | 4 => rfl
  | 5 => rfl
  | 6 => rfl
  | 7 => rfl
  | 8 => rfl
  | _ + 9 => rfl

theorem digitVal_digitChar (k : Nat) (h : k < 10) : digitVal (digitChar k) = k := by
  interval_cases k <;> rfl

theorem natToDecimalAux_ne_nil (n : Nat) : natToDecimalAux n [] ≠ [] := by
  by_cases h : n < 10
  · rw [natToDecimalAux_eq n [], if_pos h]
    simp
  · rw [natToDecimalAux_eq n [], if_neg h, natToDecimalAux_eq_append]
    simp

theorem natToDecimalAux_all_digits (n : Nat) :
    (natToDecimalAux n []).all Char.isDigit = true := by
  induction n using Nat.strong_induction_on with
  | _ n ih =>
    by_cases h : n < 10
    · rw [natToDecimalAux_eq n [], if_pos h]
      simp [digitChar_isDigit]
    · have hd : n / 10 < n := Nat.div_lt_self (by omega) (by omega)
      rw [natToDecimalAux_eq n [], if_neg h, natToDecimalAux_eq_append]
      simp [List.all_append, ih (n / 10) hd, digitChar_isDigit]

theorem foldl_natToDecimalAux (n : Nat) :
    ∀ a, (natToDecimalAux n []).foldl (fun a c => 10 * a + digitVal c) a =
      a * 10 ^ (natToDecimalAux n []).length + n := by
  induction n using Nat.strong_induction_on with
  | _ n ih =>
    intro a
    by_cases h : n < 10
    · rw [natToDecimalAux_eq n [], if_pos h]
      simp only [List.foldl_cons, List.foldl_nil, List.length_cons, List.length_nil]
      rw [digitVal_digitChar n h, pow_one]
      omega
    · have hd : n / 10 < n := Nat.div_lt_self (by omega) (by omega)
      rw [natToDecimalAux_eq n [], if_neg h, natToDecimalAux_eq_append, List.foldl_append,
        List.length_append, ih (n / 10) hd a]
      simp only [List.foldl_cons, List.foldl_nil, List.length_cons, List.length_nil]
      rw [digitVal_digitChar (n % 10) (Nat.mod_lt n (by omega))]
      have h1 : a * 10 ^ ((natToDecimalAux (n / 10) []).length + (0 + 1)) =
          a * 10 ^ (natToDecimalAux (n / 10) []).length * 10 := by ring
      rw [h1]
      omega

theorem parse_natToDecimal (n : Nat) : pyParseNat (natToDecimal n).data = some n := by
  show pyParseNat (natToDecimalAux n []) = some n
  unfold pyParseNat
  rw [if_pos ⟨natToDecimalAux_ne_nil n, natToDecimalAux_all_digits n⟩]
  rw [foldl_natToDecimalAux n 0]
  simp

/-- Claim C6: loading the sidecar produced by `save_sidecar` reproduces
the original PageMarks mapping, with the page-index keys (serialized by
`json.dump` as decimal strings) recovered as the original non-negative
integers. -/
theorem claim_C6 (pdfPath : String) (m : List (Nat × List MarkR)) :
    load_sidecar_data (save_sidecar pdfPath m) = m := by
  unfold load_sidecar_data
  rw [if_pos]
  · show (m.map fun e => (natToDecimal e.1, e.2)).map _ = m
    rw [List.map_map]
    refine list_map_self m _ fun e _ => ?_
    show ((pyParseNat (natToDecimal e.1).data).getD 0, e.2) = e
    rw [parse_natToDecimal]
    rfl
  · show ((save_sidecar pdfPath m).all_marks.all _) = true
    rw [List.all_eq_true]
    intro e he
    simp only [save_sidecar, List.mem_map] at he
    obtain ⟨a, _, rfl⟩ := he
    simp [parse_natToDecimal]

/-- Counterexample for C8: immediately after `load_sidecar_data`
returns, a mark that was missing `font` in the persisted sidecar still
has no `font` — defaulting did not happen during load. -/
theorem claim_C8_counterexample :
    ∃ e ∈ load_sidecar_data ⟨"doc.pdf", [("0", [⟨"good", 10, 20, none, none, none⟩])]⟩,
      ∃ mk ∈ e.2, mk.font = none := by
  decide

/-- Claim C8 (amended): the `font`/`size`/`width` defaulting happens
when a page is rendered (`render_current_page`), not during load: after
the defaulting loop every mark of the rendered page has all three
fields, with missing ones filled as font "Fira Code", size 10,
width 30. -/
theorem claim_C8 (marks : List MarkR) (m' : MarkR) (hm : m' ∈ render_page_marks marks) :
    ∃ mk ∈ marks, m' = ensureDefaults mk ∧
      m'.font = some (mk.font.getD DEFAULT_FONT) ∧
      m'.size = some (mk.size.getD DEFAULT_SIZE) ∧
      m'.width = some (mk.width.getD DEFAULT_WRAP) := by
  simp only [render_page_marks, List.mem_map] at hm
  obtain ⟨mk, hmk, rfl⟩ := hm
  exact ⟨mk, hmk, rfl, rfl, rfl, rfl⟩

/-- Witness for C8 at a one-mark page whose mark lacks all three
optional fields. -/
theorem claim_C8_witness :
    ∃ mk ∈ [(⟨"good", 10, 20, none, none, none⟩ : MarkR)],
      (⟨"good", 10, 20, some "Fira Code", some 10, some 30⟩ : MarkR) = ensureDefaults mk ∧
      (some "Fira Code" : Option String) = some (mk.font.getD DEFAULT_FONT) ∧
      (some 10 : Option Int) = some (mk.size.getD DEFAULT_SIZE) ∧
      (some 30 : Option Int) = some (mk.width.getD DEFAULT_WRAP) :=
  claim_C8 [⟨"good", 10, 20, none, none, none⟩]
    ⟨"good", 10, 20, some "Fira Code", some 10, some 30⟩ (by decide)

/-- Counterexample for C5: an `edit` action sits on top of the undo log
for a mark that lives on page 0, but page 1 is currently shown; `undo`
pops the entry yet leaves the mark's fields unchanged (font stays
"Arial" instead of reverting to "Fira Code"), because `undo_last_action`
only restores when a value-equal mark is found in the *currently shown*
page's list. -/
theorem claim_C5_counterexample :
    (undo_last_action
        ⟨[⟨"good", 10, 20, some "Arial", some 10, some 30⟩], [(0, [0])], 1,
          [UndoAction.edit 0 ⟨"good", 10, 20, some "Fira Code", some 10, some 30⟩]⟩).heap =
      [⟨"good", 10, 20, some "Arial", some 10, some 30⟩] ∧
    (undo_last_action
        ⟨[⟨"good", 10, 20, some "Arial", some 10, some 30⟩], [(0, [0])], 1,
          [UndoAction.edit 0 ⟨"good", 10, 20, some "Fira Code", some 10, some 30⟩]⟩).undoStack =
      [] ∧
    (⟨"good", 10, 20, some "Arial", some 10, some 30⟩ : MarkR) ≠
      ⟨"good", 10, 20, some "Fira Code", some 10, some 30⟩ := by
  decide

/-- Claim C5 (amended): when the most recent undo-log entry is an Edit
action, `undo` pops it, and overwrites the referenced mark's fields with
the stored `before` snapshot exactly when a value-equal mark is present
in the list of the currently shown page; otherwise the mark is left
unchanged. -/
theorem claim_C5 (s : AppState) (mid : Nat) (before : MarkR) (rest : List UndoAction)
    (hstack : s.undoStack = rest ++ [UndoAction.edit mid before]) :
    (undo_last_action s).undoStack = rest ∧
    (memVal s.heap ((lookupPage s.allMarks s.currentPageIdx).getD []) mid = true →
      (undo_last_action s).heap = s.heap.set mid before) ∧
    (memVal s.heap ((lookupPage s.allMarks s.currentPageIdx).getD []) mid = false →
      (undo_last_action s).heap = s.heap) := by
  unfold undo_last_action
  rw [hstack, List.getLast?_concat, List.dropLast_concat]
  by_cases h : memVal s.heap ((lookupPage s.allMarks s.currentPageIdx).getD []) mid
  · simp [h]
  · simp only [Bool.not_eq_true] at h
    simp [h]

/-- Witness for C5: editing a mark's font from "Fira Code" to "Arial"
and undoing while its page is the current page restores "Fira Code". -/
theorem claim_C5_witness :
    (undo_last_action
        ⟨[⟨"good", 10, 20, some "Arial", some 10, some 30⟩], [(0, [0])], 0,
          [UndoAction.edit 0 ⟨"good", 10, 20, some "Fira Code", some 10, some 30⟩]⟩).undoStack =
      [] ∧
    (undo_last_action
        ⟨[⟨"good", 10, 20, some "Arial", some 10, some 30⟩], [(0, [0])], 0,
          [UndoAction.edit 0 ⟨"good", 10, 20, some "Fira Code", some 10, some 30⟩]⟩).heap =
      List.set [⟨"good", 10, 20, some "Arial", some 10, some 30⟩] 0
        ⟨"good", 10, 20, some "Fira Code", some 10, some 30⟩ := by
  have h := claim_C5
    ⟨[⟨"good", 10, 20, some "Arial", some 10, some 30⟩], [(0, [0])], 0,
      [UndoAction.edit 0 ⟨"good", 10, 20, some "Fira Code", some 10, some 30⟩]⟩
    0 ⟨"good", 10, 20, some "Fira Code", some 10, some 30⟩ [] (by decide)
  exact ⟨h.1, h.2.1 (by decide)⟩

theorem foldl_union_x0 (R : List PRect) :
    ∀ a : PRect, (R.foldl PRect.union a).x0 = R.foldl (fun b r => min b r.x0) a.x0 := by
  induction R with
  | nil => intro a; rfl
  | cons r R ih => intro a; rw [List.foldl_cons, List.foldl_cons, ih]; rfl

theorem foldl_union_y0 (R : List PRect) :
    ∀ a : PRect, (R.foldl PRect.union a).y0 = R.foldl (fun b r => min b r.y0) a.y0 := by
  induction R with
  | nil => intro a; rfl
  | cons r R ih => intro a; rw [List.foldl_cons, List.foldl_cons, ih]; rfl

theorem foldl_union_x1 (R : List PRect) :
    ∀ a : PRect, (R.foldl PRect.union a).x1 = R.foldl (fun b r => max b r.x1) a.x1 := by
  induction R with
  | nil => intro a; rfl
  | cons r R ih => intro a; rw [List.foldl_cons, List.foldl_cons, ih]; rfl

theorem foldl_union_y1 (R : List PRect) :
    ∀ a : PRect, (R.foldl PRect.union a).y1 = R.foldl (fun b r => max b r.y1) a.y1 := by
  induction R with
  | nil => intro a; rfl
  | cons r R ih => intro a; rw [List.foldl_cons, List.foldl_cons, ih]; rfl

theorem foldl_min_le_start (f : PRect → Rat) (R : List PRect) :
    ∀ a : Rat, R.foldl (fun b r => min b (f r)) a ≤ a := by
  induction R with
  | nil => intro a; exact le_refl a
  | cons r R ih =>
    intro a
    exact le_trans (ih (min a (f r))) (min_le_left _ _)

theorem foldl_min_le_mem (f : PRect → Rat) (R : List PRect) (r0 : PRect) (hr : r0 ∈ R) :
    ∀ a : Rat, R.foldl (fun b r => min b (f r)) a ≤ f r0 := by
  induction R with
  | nil => exact absurd hr (List.not_mem_nil r0)
  | cons r R ih =>
    intro a
    rcases List.mem_cons.mp hr with rfl | hr'
    · exact le_trans (foldl_min_le_start f R _) (min_le_right _ _)
    · exact ih hr' _

theorem le_foldl_min (f : PRect → Rat) (R : List PRect) (b : Rat)
    (h : ∀ r ∈ R, b ≤ f r) : ∀ a : Rat, b ≤ a → b ≤ R.foldl (fun b r => min b (f r)) a := by
  induction R with
  | nil => intro a ha; exact ha
  | cons r R ih =>
    intro a ha
    exact ih (fun r' hr' => h r' (List.mem_cons_of_mem r hr'))
      _ (le_min ha (h r (List.mem_cons_self r R)))

theorem foldl_max_ge_start (f : PRect → Rat) (R : List PRect) :
    ∀ a : Rat, a ≤ R.foldl (fun b r => max b (f r)) a := by
  induction R with
  | nil => intro a; exact le_refl a
  | cons r R ih =>
    intro a
    exact le_trans (le_max_left _ _) (ih (max a (f r)))

theorem foldl_max_le (f : PRect → Rat) (R : List PRect) (b : Rat)
    (h : ∀ r ∈ R, f r ≤ b) : ∀ a : Rat, a ≤ b → R.foldl (fun b r => max b (f r)) a ≤ b := by
  induction R with
  | nil => intro a ha; exact ha
  | cons r R ih =>
    intro a ha
    exact ih (fun r' hr' => h r' (List.mem_cons_of_mem r hr'))
      _ (max_le ha (h r (List.mem_cons_self r R)))

/-- Claim C1: the export compositor creates a destination page whose
dimensions equal the width and height of the union of the (normalized,
origin-anchored) page rectangle and all successfully rendered mark
rectangles, with `offsetX = max(0, -union.x0)` and
`offsetY = max(0, -union.y0)` applied to the page content's destination
rectangle and to every placed mark rectangle; when no rendered mark
extends past the page rectangle, the composed page keeps the original
dimensions and the offset is `(0, 0)`; and a mark placed at negative `x`
(the leftmost rectangle of the union) grows the composed width beyond
the page width while the offset exactly cancels the overflow, so that
the mark's left edge lands at 0. -/
theorem claim_C1 (W H : Rat) (marks : List MarkPos) (render : MarkPos → Option (Rat × Rat))
    (R : List PRect)
    (hR : R = marks.filterMap fun m => (render m).map fun wh => markRect m wh.1 wh.2)
    (u : PRect) (hu : u = R.foldl PRect.union ⟨0, 0, W, H⟩) :
    (composePage ⟨0, 0, W, H⟩ marks render =
      { pageWidth := u.width
        pageHeight := u.height
        offsetX := max 0 (-u.x0)
        offsetY := max 0 (-u.y0)
        destRect := ⟨max 0 (-u.x0), max 0 (-u.y0), max 0 (-u.x0) + W, max 0 (-u.y0) + H⟩
        markRects := R.map fun r => ⟨r.x0 + max 0 (-u.x0), r.y0 + max 0 (-u.y0),
                                     r.x1 + max 0 (-u.x0), r.y1 + max 0 (-u.y0)⟩ }) ∧
    ((∀ r ∈ R, 0 ≤ r.x0 ∧ 0 ≤ r.y0 ∧ r.x1 ≤ W ∧ r.y1 ≤ H) →
      (composePage ⟨0, 0, W, H⟩ marks render).pageWidth = W ∧
      (composePage ⟨0, 0, W, H⟩ marks render).pageHeight = H ∧
      (composePage ⟨0, 0, W, H⟩ marks render).offsetX = 0 ∧
      (composePage ⟨0, 0, W, H⟩ marks render).offsetY = 0) ∧
    (∀ m ∈ marks, ∀ w h, render m = some (w, h) → m.x < 0 →
      (∀ r ∈ R, m.x ≤ r.x0) →
      W < (composePage ⟨0, 0, W, H⟩ marks render).pageWidth ∧
      m.x + (composePage ⟨0, 0, W, H⟩ marks render).offsetX = 0) := by
  subst hR
  have hmaxX : (if u.x0 < 0 then -u.x0 else 0) = max 0 (-u.x0) := by
    rcases lt_or_le u.x0 0 with h | h
    · rw [if_pos h, max_eq_right (by linarith)]
    · rw [if_neg (not_lt.mpr h), max_eq_left (by linarith)]
  have hmaxY : (if u.y0 < 0 then -u.y0 else 0) = max 0 (-u.y0) := by
    rcases lt_or_le u.y0 0 with h | h
    · rw [if_pos h, max_eq_right (by linarith)]
    · rw [if_neg (not_lt.mpr h), max_eq_left (by linarith)]
  have hC : composePage ⟨0, 0, W, H⟩ marks render =
      { pageWidth := u.width
        pageHeight := u.height
        offsetX := max 0 (-u.x0)
        offsetY := max 0 (-u.y0)
        destRect := ⟨max 0 (-u.x0), max 0 (-u.y0), max 0 (-u.x0) + W, max 0 (-u.y0) + H⟩
        markRects := (marks.filterMap fun m =>
            (render m).map fun wh => markRect m wh.1 wh.2).map
          fun r => ⟨r.x0 + max 0 (-u.x0), r.y0 + max 0 (-u.y0),
                    r.x1 + max 0 (-u.x0), r.y1 + max 0 (-u.y0)⟩ } := by
    simp only [composePage]
    rw [← hu, hmaxX, hmaxY]
    simp [PRect.width, PRect.height]
  refine ⟨hC, fun hin => ?_, fun m hm w h hrender hneg hmin => ?_⟩
  · have hx0 : u.x0 = 0 := by
      rw [hu, foldl_union_x0]
      exact le_antisymm (foldl_min_le_start _ _ _)
        (le_foldl_min _ _ 0 (fun r hr => (hin r hr).1) 0 (le_refl 0))
    have hy0 : u.y0 = 0 := by
      rw [hu, foldl_union_y0]
      exact le_antisymm (foldl_min_le_start _ _ _)
        (le_foldl_min _ _ 0 (fun r hr => (hin r hr).2.1) 0 (le_refl 0))
    have hx1 : u.x1 = W := by
      rw [hu, foldl_union_x1]
      exact le_antisymm (foldl_max_le _ _ W (fun r hr => (hin r hr).2.2.1) W (le_refl W))
        (foldl_max_ge_start _ _ _)
    have hy1 : u.y1 = H := by
      rw [hu, foldl_union_y1]
      exact le_antisymm (foldl_max_le _ _ H (fun r hr => (hin r hr).2.2.2) H (le_refl H))
        (foldl_max_ge_start _ _ _)
    rw [hC]
    refine ⟨?_, ?_, ?_, ?_⟩
    · show u.width = W
      unfold PRect.width
      rw [hx0, hx1]
      ring
    · show u.height = H
      unfold PRect.height
      rw [hy0, hy1]
      ring
    · show max 0 (-u.x0) = 0
      rw [hx0]
      simp
    · show max 0 (-u.y0) = 0
      rw [hy0]
      simp
  · have hmem : markRect m w h ∈
        marks.filterMap fun m => (render m).map fun wh => markRect m wh.1 wh.2 := by
      rw [List.mem_filterMap]
      exact ⟨m, hm, by rw [hrender]; rfl⟩
    have hx0 : u.x0 = m.x := by
      rw [hu, foldl_union_x0]
      refine le_antisymm ?_ ?_
      · have := foldl_min_le_mem (fun r => r.x0) _ _ hmem (0 : Rat)
        simpa [markRect] using this
      · exact le_foldl_min _ _ m.x (fun r hr => hmin r hr) 0 (by linarith)
    have hx1 : W ≤ u.x1 := by
      rw [hu, foldl_union_x1]
      exact foldl_max_ge_start _ _ _
    constructor
    · rw [hC]
      show W < u.width
      unfold PRect.width
      rw [hx0]
      linarith
    · rw [hC]
      show m.x + max 0 (-u.x0) = 0
      rw [hx0, max_eq_right (by linarith)]
      ring

/-- Witness for C1: a 100 x 50 page with one mark at x = -10 that
renders to a 20 x 10 footprint; the composed width grows beyond 100 and
the mark's left edge lands at 0. -/
theorem claim_C1_witness :
    (100 : Rat) < (composePage ⟨0, 0, 100, 50⟩ [⟨-10, 5⟩]
        (fun _ => some (20, 10))).pageWidth ∧
    (-10 : Rat) + (composePage ⟨0, 0, 100, 50⟩ [⟨-10, 5⟩]
        (fun _ => some (20, 10))).offsetX = 0 :=
  (claim_C1 100 50 [⟨-10, 5⟩] (fun _ => some (20, 10))
      [⟨-10, 5, -10 + 20, 5 + 10⟩] rfl
      ⟨min 0 (-10), min 0 5, max 100 (-10 + 20), max 50 (5 + 10)⟩ rfl).2.2
    ⟨-10, 5⟩ (by decide) 20 10 rfl (by decide) (by decide)

theorem pyIsSpace_sp : pyIsSpace ' ' = true := rfl

theorem pyIsSpace_dollar : pyIsSpace '$' = false := rfl

theorem isPunct_not_space (c : Char) (h : isPunct c = true) : pyIsSpace c = false := by
  simp only [isPunct, Bool.or_eq_true, beq_iff_eq] at h
  rcases h with ((((((((((rfl | rfl) | rfl) | rfl) | rfl) | rfl) | rfl) | rfl) | rfl) | rfl) | rfl) | rfl <;> rfl

theorem isPunct_not_dollar (c : Char) (h : isPunct c = true) : c ≠ '$' := by
  simp only [isPunct, Bool.or_eq_true, beq_iff_eq] at h
  rcases h with ((((((((((rfl | rfl) | rfl) | rfl) | rfl) | rfl) | rfl) | rfl) | rfl) | rfl) | rfl) | rfl <;> decide

theorem isBreak_space (c : Char) (h : isBreak c = true) : pyIsSpace c = true := by
  simp only [isBreak, Bool.or_eq_true, beq_iff_eq] at h
  rcases h with ((((((((rfl | rfl) | rfl) | rfl) | rfl) | rfl) | rfl) | rfl) | rfl) | rfl <;> rfl

theorem rstrip_nil : rstrip [] = [] := rfl

theorem rstrip_eq_self (l : List Char)
    (h : ∀ c, l.getLast? = some c → pyIsSpace c = false) : rstrip l = l := by
  unfold rstrip
  cases hrev : l.reverse with
  | nil =>
    rw [List.reverse_eq_nil_iff] at hrev
    subst hrev
    rfl
  | cons c t =>
    have hc : l.getLast? = some c := by
      rw [← List.head?_reverse, hrev]
      rfl
    rw [List.dropWhile_cons, h c hc]
    simp only [Bool.false_eq_true, if_false]
    rw [← hrev, List.reverse_reverse]

theorem rstrip_append_space (l : List Char) : rstrip (l ++ [' ']) = rstrip l := by
  unfold rstrip
  rw [List.reverse_append]
  simp [List.dropWhile_cons, pyIsSpace_sp]

theorem rstrip_sublist_pyIsSpace (l : List Char) :
    ∀ c ∈ rstrip l, c ∈ l := by
  intro c hc
  unfold rstrip at hc
  rw [List.mem_reverse] at hc
  have := List.dropWhile_sublist (l := l.reverse) (p := pyIsSpace)
  have hmem := this.mem hc
  rwa [List.mem_reverse] at hmem

theorem ntok_ne_nil (t : List Char) (h : NTok t) : t ≠ [] := by
  rcases h with ⟨hne, _⟩ | ⟨mid, pr, rfl, _, _⟩ | ⟨tl, rfl, _⟩
  · exact hne
  · simp
  · simp

theorem ntok_ne_sp (t : List Char) (h : NTok t) : t ≠ [' '] := by
  rcases h with ⟨_, hall⟩ | ⟨mid, pr, heq, _, _⟩ | ⟨tl, heq, _⟩
  · intro heq
    subst heq
    have := (hall ' ' (List.mem_singleton_self ' ')).1
    simp [pyIsSpace_sp] at this
  · intro h2
    rw [heq] at h2
    have : '$' = ' ' := by injection h2
    exact absurd this (by decide)
  · intro h2
    rw [heq] at h2
    have : '$' = ' ' := by injection h2
    exact absurd this (by decide)

theorem ntok_head_not_space (t : List Char) (h : NTok t) :
    ∀ c cs, t = c :: cs → pyIsSpace c = false := by
  intro c cs heq
  rcases h with ⟨_, hall⟩ | ⟨mid, pr, heq2, _, _⟩ | ⟨tl, heq2, _⟩
  · exact (hall c (heq ▸ List.mem_cons_self c cs)).1
  · rw [heq2] at heq
    have : '$' = c := by injection heq
    rw [← this]
    rfl
  · rw [heq2] at heq
    have : '$' = c := by injection heq
    rw [← this]
    rfl

theorem ntok_last_not_space (t : List Char) (h : NTok t) :
    ∀ c, t.getLast? = some c → pyIsSpace c = false := by
  intro c hc
  rcases h with ⟨_, hall⟩ | ⟨mid, pr, heq, _, hpr⟩ | ⟨tl, heq, hall⟩
  · exact (hall c (List.mem_of_getLast?_eq_some hc)).1
  · subst heq
    cases hp : pr with
    | nil =>
      subst hp
      have : ('$' :: (mid ++ ['$'])).getLast? = some '$' := by
        rw [show ('$' :: (mid ++ ['$'])) = ('$' :: mid) ++ ['$'] by simp]
        exact List.getLast?_concat _
      rw [this] at hc
      injection hc with hc'
      rw [← hc']
      rfl
    | cons p pr' =>
      subst hp
      have h1 : ('$' :: (mid ++ '$' :: p :: pr')).getLast? = (p :: pr').getLast? := by
        rw [show ('$' :: (mid ++ '$' :: p :: pr')) = ('$' :: mid ++ ['$']) ++ (p :: pr') by simp]
        rw [List.getLast?_append]
        have hs : ((p :: pr').getLast?).isSome := List.getLast?_isSome.mpr (by simp)
        obtain ⟨x, hx⟩ := Option.isSome_iff_exists.mp hs
        rw [hx, Option.or_some]
      rw [h1] at hc
      exact isPunct_not_space c (hpr c (List.mem_of_getLast?_eq_some hc))
  · subst heq
    have hmem := List.mem_of_getLast?_eq_some hc
    rcases List.mem_cons.mp hmem with rfl | hmem'
    · rfl
    · exact (hall c hmem').1

theorem ntok_rstrip (t : List Char) (h : NTok t) : rstrip t = t :=
  rstrip_eq_self t (ntok_last_not_space t h)

theorem tokRun_main_cons (cur : List Char) (ch : Char) (rest : List Char) :
    tokRun (.main cur) (ch :: rest) =
      if pyIsSpace ch then (if cur = [] then [] else [cur]) ++ [' '] :: tokRun .spaces rest
      else if ch = '$' then
        (if cur = [] then [] else [cur]) ++
          (if rest.contains '$' then tokRun (.span ['$']) rest
           else tokRun (.main ['$']) rest)
      else tokRun (.main (cur ++ [ch])) rest := rfl

theorem tokRun_spaces_cons (ch : Char) (rest : List Char) :
    tokRun .spaces (ch :: rest) =
      if pyIsSpace ch then tokRun .spaces rest
      else if ch = '$' then
        (if rest.contains '$' then tokRun (.span ['$']) rest
         else tokRun (.main ['$']) rest)
      else tokRun (.main [ch]) rest := rfl

theorem tokRun_span_cons (acc : List Char) (ch : Char) (rest : List Char) :
    tokRun (.span acc) (ch :: rest) =
      if ch = '$' then tokRun (.punct (acc ++ ['$'])) rest
      else tokRun (.span (acc ++ [ch])) rest := rfl

theorem tokRun_punct_cons (acc : List Char) (ch : Char) (rest : List Char) :
    tokRun (.punct acc) (ch :: rest) =
      if isPunct ch then tokRun (.punct (acc ++ [ch])) rest
      else if pyIsSpace ch then acc :: [' '] :: tokRun .spaces rest
      else if ch = '$' then
        acc :: (if rest.contains '$' then tokRun (.span ['$']) rest
                else tokRun (.main ['$']) rest)
      else acc :: tokRun (.main [ch]) rest := rfl

theorem tokRun_main_plain :
    ∀ p : List Char, (∀ c ∈ p, pyIsSpace c = false ∧ c ≠ '$') →
      ∀ cur l, tokRun (.main cur) (p ++ l) = tokRun (.main (cur ++ p)) l := by
  intro p
  induction p with
  | nil => intro _ cur l; simp
  | cons c p ih =>
    intro hp cur l
    obtain ⟨hs, hd⟩ := hp c (List.mem_cons_self c p)
    rw [List.cons_append, tokRun_main_cons, hs, if_neg hd]
    simp only [Bool.false_eq_true, if_false]
    rw [ih (fun b hb => hp b (List.mem_cons_of_mem c hb)) (cur ++ [c]) l]
    congr 2
    simp

theorem tokRun_span_acc :
    ∀ mid : List Char, '$' ∉ mid →
      ∀ acc l, tokRun (.span acc) (mid ++ '$' :: l) =
        tokRun (.punct (acc ++ (mid ++ ['$']))) l := by
  intro mid
  induction mid with
  | nil => intro _ acc l; simp [tokRun_span_cons]
  | cons c mid ih =>
    intro hmid acc l
    have hc : c ≠ '$' := fun h => hmid (h ▸ List.mem_cons_self c mid)
    rw [List.cons_append, tokRun_span_cons, if_neg (fun h => hc h)]
    rw [ih (fun h => hmid (List.mem_cons_of_mem c h)) (acc ++ [c]) l]
    congr 2
    simp

theorem tokRun_punct_acc :
    ∀ pr : List Char, (∀ c ∈ pr, isPunct c = true) →
      ∀ acc l, tokRun (.punct acc) (pr ++ l) = tokRun (.punct (acc ++ pr)) l := by
  intro pr
  induction pr with
  | nil => intro _ acc l; simp
  | cons c pr ih =>
    intro hpr acc l
    rw [List.cons_append, tokRun_punct_cons, hpr c (List.mem_cons_self c pr)]
    simp only [if_true]
    rw [ih (fun b hb => hpr b (List.mem_cons_of_mem c hb)) (acc ++ [c]) l]
    congr 2
    simp

theorem contains_eq_false_of_not_mem (l : List Char) (c : Char) (h : c ∉ l) :
    l.contains c = false := by
  rw [Bool.eq_false_iff]
  intro hcon
  exact h (List.elem_iff.mp hcon)

theorem tokenize_pure (t : List Char) (h : PureTok t) : tokenize t = [t] := by
  obtain ⟨hne, hall⟩ := h
  have h2 := tokRun_main_plain t hall [] []
  rw [List.append_nil] at h2
  unfold tokenize
  rw [h2]
  show (if t = [] then [] else [t]) = [t]
  rw [if_neg hne]

theorem tokenize_dollar (t : List Char) (h : DollarTok t) : tokenize t = [t] := by
  obtain ⟨tl, rfl, hall⟩ := h
  have hnc : tl.contains '$' = false :=
    contains_eq_false_of_not_mem tl '$' (fun hmem => (hall '$' hmem).2 rfl)
  unfold tokenize
  rw [tokRun_main_cons, pyIsSpace_dollar]
  simp only [Bool.false_eq_true, if_false, if_pos rfl, hnc, List.nil_append]
  have h2 := tokRun_main_plain tl (fun c hc => hall c hc) ['$'] []
  rw [List.append_nil] at h2
  rw [h2]
  show (if '$' :: tl = [] then [] else ['$' :: tl]) = ['$' :: tl]
  simp

theorem tokenize_math (t : List Char) (h : MathTok t) : tokenize t = [t] := by
  obtain ⟨mid, pr, rfl, hmid, hpr⟩ := h
  have hc : (mid ++ '$' :: pr).contains '$' = true :=
    List.elem_iff.mpr (by simp)
  unfold tokenize
  rw [tokRun_main_cons, pyIsSpace_dollar]
  simp only [Bool.false_eq_true, if_false, if_pos rfl, hc, if_true, List.nil_append]
  rw [tokRun_span_acc mid hmid ['$'] pr]
  have h2 := tokRun_punct_acc pr hpr (['$'] ++ (mid ++ ['$'])) []
  rw [List.append_nil] at h2
  rw [h2]
  show [(['$'] ++ (mid ++ ['$'])) ++ pr] = _
  congr 1
  simp

theorem tokenize_ntok (t : List Char) (h : NTok t) : tokenize t = [t] := by
  rcases h with h | h | h
  · exact tokenize_pure t h
  · exact tokenize_math t h
  · exact tokenize_dollar t h

theorem pure_singleton (ch : Char) (h1 : pyIsSpace ch = false) (h2 : ch ≠ '$') :
    PureTok [ch] := by
  refine ⟨by simp, fun c hc => ?_⟩
  rw [List.mem_singleton] at hc
  subst hc
  exact ⟨h1, h2⟩

theorem pure_append_char (cur : List Char) (ch : Char) (h : PureTok cur)
    (h1 : pyIsSpace ch = false) (h2 : ch ≠ '$') : PureTok (cur ++ [ch]) := by
  refine ⟨by simp, fun c hc => ?_⟩
  rcases List.mem_append.mp hc with hc' | hc'
  · exact h.2 c hc'
  · rw [List.mem_singleton] at hc'
    subst hc'
    exact ⟨h1, h2⟩

theorem dollar_singleton : DollarTok ['$'] :=
  ⟨[], rfl, fun c hc => absurd hc (List.not_mem_nil c)⟩

theorem dollar_append_char (cur : List Char) (ch : Char) (h : DollarTok cur)
    (h1 : pyIsSpace ch = false) (h2 : ch ≠ '$') : DollarTok (cur ++ [ch]) := by
  obtain ⟨tl, rfl, hall⟩ := h
  refine ⟨tl ++ [ch], by simp, fun c hc => ?_⟩
  rcases List.mem_append.mp hc with hc' | hc'
  · exact hall c hc'
  · rw [List.mem_singleton] at hc'
    subst hc'
    exact ⟨h1, h2⟩

theorem dropSpaceToks_nil : dropSpaceToks [] = [] := rfl

theorem dropSpaceToks_cons_sp (ts : List (List Char)) :
    dropSpaceToks ([' '] :: ts) = dropSpaceToks ts := by
  simp [dropSpaceToks]

theorem dropSpaceToks_cons_ns (t : List Char) (ts : List (List Char)) (h : t ≠ [' ']) :
    dropSpaceToks (t :: ts) = t :: dropSpaceToks ts := by
  simp [dropSpaceToks, h]

theorem nsOk_nil : nsOk [] := trivial

theorem nsOk_cons_left (t : List Char) (ts : List (List Char))
    (h1 : PureTok t ∨ MathTok t) (h2 : nsOk ts) : nsOk (t :: ts) :=
  Or.inl ⟨h1, h2⟩

theorem nsOk_cons_dollar (t : List Char) (ts : List (List Char))
    (h1 : DollarTok t) (h2 : ∀ u ∈ ts, PureTok u) : nsOk (t :: ts) :=
  Or.inr ⟨h1, h2⟩

theorem nsOk_of_all_pure (ts : List (List Char)) (h : ∀ u ∈ ts, PureTok u) : nsOk ts := by
  induction ts with
  | nil => trivial
  | cons t ts ih =>
    exact Or.inl ⟨Or.inl (h t (List.mem_cons_self t ts)),
      ih fun u hu => h u (List.mem_cons_of_mem t hu)⟩

theorem mem_of_contains (l : List Char) (c : Char) (h : l.contains c = true) : c ∈ l :=
  List.elem_iff.mp h

theorem not_mem_of_contains_false (l : List Char) (c : Char) (h : l.contains c = false) :
    c ∉ l := by
  intro hmem
  rw [show l.contains c = List.elem c l from rfl] at h
  rw [List.elem_iff.mpr hmem] at h
  exact Bool.true_eq_false.mp h

theorem tokRun_dfree : ∀ (l : List Char) (st : TokState), '$' ∉ l →
    (st = .spaces ∨ ∃ cur, st = .main cur ∧ (cur = [] ∨ PureTok cur)) →
    ∀ t ∈ tokRun st l, t = [' '] ∨ PureTok t := by
  intro l
  induction l with
  | nil =>
    intro st _ hst t ht
    rcases hst with rfl | ⟨cur, rfl, hcur⟩
    · exact absurd ht (List.not_mem_nil t)
    · rcases hcur with rfl | hp
      · exact absurd ht (List.not_mem_nil t)
      · show t = [' '] ∨ _
        have : tokRun (.main cur) [] = [cur] := by
          show (if cur = [] then [] else [cur]) = [cur]
          rw [if_neg hp.1]
        rw [this, List.mem_singleton] at ht
        subst ht
        exact Or.inr hp
  | cons ch rest ih =>
    intro st hd hst t ht
    have hdr : '$' ∉ rest := fun h => hd (List.mem_cons_of_mem ch h)
    have hchd : ch ≠ '$' := fun h => hd (h ▸ List.mem_cons_self ch rest)
    rcases hst with rfl | ⟨cur, rfl, hcur⟩
    · rw [tokRun_spaces_cons] at ht
      by_cases hsp : pyIsSpace ch = true
      · rw [if_pos hsp] at ht
        exact ih .spaces hdr (Or.inl rfl) t ht
      · rw [if_neg hsp, if_neg hchd] at ht
        have hsp' : pyIsSpace ch = false := by
          rw [Bool.eq_false_iff]
          exact hsp
        exact ih (.main [ch]) hdr
          (Or.inr ⟨[ch], rfl, Or.inr (pure_singleton ch hsp' hchd)⟩) t ht
    · rw [tokRun_main_cons] at ht
      by_cases hsp : pyIsSpace ch = true
      · rw [if_pos hsp] at ht
        rcases List.mem_append.mp ht with hflush | hrest
        · rcases hcur with rfl | hp
          · simp at hflush
          · rw [if_neg hp.1, List.mem_singleton] at hflush
            subst hflush
            exact Or.inr hp
        · rcases List.mem_cons.mp hrest with rfl | hrest'
          · exact Or.inl rfl
          · exact ih .spaces hdr (Or.inl rfl) t hrest'
      · rw [if_neg hsp, if_neg hchd] at ht
        have hsp' : pyIsSpace ch = false := by
          rw [Bool.eq_false_iff]
          exact hsp
        have hcur' : (cur ++ [ch] = [] ∨ PureTok (cur ++ [ch])) := by
          rcases hcur with rfl | hp
          · exact Or.inr (by simpa using pure_singleton ch hsp' hchd)
          · exact Or.inr (pure_append_char cur ch hp hsp' hchd)
        exact ih (.main (cur ++ [ch])) hdr (Or.inr ⟨cur ++ [ch], rfl, hcur'⟩) t ht

theorem tok_result_sp (out : List (List Char))
    (h : (∀ t ∈ out, t = [' '] ∨ NTok t) ∧ nsOk (dropSpaceToks out)) :
    (∀ t ∈ ([' '] : List Char) :: out, t = [' '] ∨ NTok t) ∧
      nsOk (dropSpaceToks (([' '] : List Char) :: out)) := by
  refine ⟨fun t ht => ?_, ?_⟩
  · rcases List.mem_cons.mp ht with rfl | ht'
    · exact Or.inl rfl
    · exact h.1 t ht'
  · rw [dropSpaceToks_cons_sp]
    exact h.2

theorem tok_result_cons (t0 : List Char) (out : List (List Char))
    (hns : PureTok t0 ∨ MathTok t0)
    (h : (∀ t ∈ out, t = [' '] ∨ NTok t) ∧ nsOk (dropSpaceToks out)) :
    (∀ t ∈ t0 :: out, t = [' '] ∨ NTok t) ∧ nsOk (dropSpaceToks (t0 :: out)) := by
  have hnt : NTok t0 := by
    rcases hns with h' | h'
    · exact Or.inl h'
    · exact Or.inr (Or.inl h')
  refine ⟨fun t ht => ?_, ?_⟩
  · rcases List.mem_cons.mp ht with rfl | ht'
    · exact Or.inr hnt
    · exact h.1 t ht'
  · rw [dropSpaceToks_cons_ns _ _ (ntok_ne_sp t0 hnt)]
    exact nsOk_cons_left _ _ hns h.2

theorem tok_result_dollar (t0 : List Char) (out : List (List Char))
    (hd : DollarTok t0) (hout : ∀ t ∈ out, t = [' '] ∨ PureTok t) :
    (∀ t ∈ t0 :: out, t = [' '] ∨ NTok t) ∧ nsOk (dropSpaceToks (t0 :: out)) := by
  have hnt : NTok t0 := Or.inr (Or.inr hd)
  refine ⟨fun t ht => ?_, ?_⟩
  · rcases List.mem_cons.mp ht with rfl | ht'
    · exact Or.inr hnt
    · rcases hout t ht' with rfl | hp
      · exact Or.inl rfl
      · exact Or.inr (Or.inl hp)
  · rw [dropSpaceToks_cons_ns _ _ (ntok_ne_sp t0 hnt)]
    refine nsOk_cons_dollar _ _ hd ?_
    intro u hu
    have hu' : u ∈ out := List.mem_of_mem_filter hu
    rcases hout u hu' with rfl | hp
    · have := List.of_mem_filter hu
      simp at this
    · exact hp

theorem tok_result_flush (cur : List Char) (out : List (List Char))
    (hcur : cur = [] ∨ (PureTok cur ∨ MathTok cur))
    (h : (∀ t ∈ out, t = [' '] ∨ NTok t) ∧ nsOk (dropSpaceToks out)) :
    (∀ t ∈ (if cur = [] then [] else [cur]) ++ out, t = [' '] ∨ NTok t) ∧
      nsOk (dropSpaceToks ((if cur = [] then [] else [cur]) ++ out)) := by
  rcases hcur with rfl | hns
  · simpa using h
  · have hne : cur ≠ [] := by
      rcases hns with h' | h'
      · exact ntok_ne_nil cur (Or.inl h')
      · exact ntok_ne_nil cur (Or.inr (Or.inl h'))
    rw [if_neg hne]
    exact tok_result_cons cur out hns h

theorem tokRun_ok : ∀ (l : List Char) (st : TokState), StOk st l →
    (∀ t ∈ tokRun st l, t = [' '] ∨ NTok t) ∧ nsOk (dropSpaceToks (tokRun st l)) := by
  intro l
  induction l with
  | nil =>
    intro st hst
    cases st with
    | main cur =>
      rcases hst with rfl | hp | ⟨hdol, _⟩
      · exact ⟨fun t ht => absurd ht (List.not_mem_nil t), nsOk_nil⟩
      · have he : tokRun (.main cur) [] = [cur] := by
          show (if cur = [] then [] else [cur]) = [cur]
          rw [if_neg hp.1]
        rw [he]
        refine ⟨fun t ht => ?_, ?_⟩
        · rw [List.mem_singleton] at ht
          subst ht
          exact Or.inr (Or.inl hp)
        · rw [dropSpaceToks_cons_ns _ _ (ntok_ne_sp cur (Or.inl hp)), dropSpaceToks_nil]
          exact nsOk_cons_left _ _ (Or.inl hp) nsOk_nil
      · have he : tokRun (.main cur) [] = [cur] := by
          show (if cur = [] then [] else [cur]) = [cur]
          rw [if_neg (ntok_ne_nil cur (Or.inr (Or.inr hdol)))]
        rw [he]
        refine ⟨fun t ht => ?_, ?_⟩
        · rw [List.mem_singleton] at ht
          subst ht
          exact Or.inr (Or.inr (Or.inr hdol))
        · rw [dropSpaceToks_cons_ns _ _ (ntok_ne_sp cur (Or.inr (Or.inr hdol))),
            dropSpaceToks_nil]
          exact nsOk_cons_dollar _ _ hdol (fun u hu => absurd hu (List.not_mem_nil u))
    | spaces => exact ⟨fun t ht => absurd ht (List.not_mem_nil t), nsOk_nil⟩
    | span acc => exact absurd hst.2 (List.not_mem_nil '$')
    | punct acc =>
      refine ⟨fun t ht => ?_, ?_⟩
      · rw [show tokRun (.punct acc) [] = [acc] from rfl, List.mem_singleton] at ht
        subst ht
        exact Or.inr (Or.inr (Or.inl hst))
      · rw [show tokRun (.punct acc) [] = [acc] from rfl,
          dropSpaceToks_cons_ns _ _ (ntok_ne_sp acc (Or.inr (Or.inl hst))), dropSpaceToks_nil]
        exact nsOk_cons_left _ _ (Or.inr hst) nsOk_nil
  | cons ch rest ih =>
    intro st hst
    cases st with
    | main cur =>
      rw [tokRun_main_cons]
      by_cases hsp : pyIsSpace ch = true
      · rw [if_pos hsp]
        rcases hst with rfl | hp | ⟨hdol, hnd⟩
        · exact tok_result_flush [] _ (Or.inl rfl) (tok_result_sp _ (ih .spaces trivial))
        · exact tok_result_flush cur _ (Or.inr (Or.inl hp))
            (tok_result_sp _ (ih .spaces trivial))
        · have hd' : '$' ∉ rest := fun h => hnd (List.mem_cons_of_mem ch h)
          rw [if_neg (ntok_ne_nil cur (Or.inr (Or.inr hdol)))]
          refine tok_result_dollar cur _ hdol ?_
          intro t ht
          rcases List.mem_cons.mp ht with rfl | ht'
          · exact Or.inl rfl
          · exact tokRun_dfree rest .spaces hd' (Or.inl rfl) t ht'
      · rw [if_neg hsp]
        by_cases hch : ch = '$'
        · rw [if_pos hch]
          subst hch
          have hflushcur : cur = [] ∨ (PureTok cur ∨ MathTok cur) := by
            rcases hst with rfl | hp | ⟨_, hnd⟩
            · exact Or.inl rfl
            · exact Or.inr (Or.inl hp)
            · exact absurd (List.mem_cons_self '$' rest) hnd
          by_cases hcon : rest.contains '$' = true
          · rw [if_pos hcon]
            exact tok_result_flush cur _ hflushcur
              (ih (.span ['$']) ⟨⟨[], rfl, by simp⟩, mem_of_contains rest '$' hcon⟩)
          · rw [if_neg hcon]
            exact tok_result_flush cur _ hflushcur
              (ih (.main ['$']) (Or.inr (Or.inr ⟨dollar_singleton,
                not_mem_of_contains_false rest '$' (Bool.eq_false_iff.mpr hcon)⟩)))
        · rw [if_neg hch]
          have hsp' : pyIsSpace ch = false := Bool.eq_false_iff.mpr hsp
          apply ih (.main (cur ++ [ch]))
          rcases hst with rfl | hp | ⟨hdol, hnd⟩
          · exact Or.inr (Or.inl (by simpa using pure_singleton ch hsp' hch))
          · exact Or.inr (Or.inl (pure_append_char cur ch hp hsp' hch))
          · exact Or.inr (Or.inr ⟨dollar_append_char cur ch hdol hsp' hch,
              fun h => hnd (List.mem_cons_of_mem ch h)⟩)
    | spaces =>
      rw [tokRun_spaces_cons]
      by_cases hsp : pyIsSpace ch = true
      · rw [if_pos hsp]
        exact ih .spaces trivial
      · rw [if_neg hsp]
        by_cases hch : ch = '$'
        · rw [if_pos hch]
          by_cases hcon : rest.contains '$' = true
          · rw [if_pos hcon]
            exact ih (.span ['$']) ⟨⟨[], rfl, by simp⟩, mem_of_contains rest '$' hcon⟩
          · rw [if_neg hcon]
            exact ih (.main ['$']) (Or.inr (Or.inr ⟨dollar_singleton,
              not_mem_of_contains_false rest '$' (Bool.eq_false_iff.mpr hcon)⟩))
        · rw [if_neg hch]
          have hsp' : pyIsSpace ch = false := Bool.eq_false_iff.mpr hsp
          exact ih (.main [ch]) (Or.inr (Or.inl (pure_singleton ch hsp' hch)))
    | span acc =>
      obtain ⟨⟨mid, rfl, hmid⟩, hdm⟩ := hst
      rw [tokRun_span_cons]
      by_cases hch : ch = '$'
      · rw [if_pos hch]
        subst hch
        apply ih (.punct ('$' :: mid ++ ['$']))
        show MathTok _
        exact ⟨mid, [], by simp, hmid, by simp⟩
      · rw [if_neg hch]
        apply ih (.span ('$' :: mid ++ [ch]))
        refine ⟨⟨mid ++ [ch], by simp, ?_⟩, ?_⟩
        · intro h
          rcases List.mem_append.mp h with h' | h'
          · exact hmid h'
          · exact hch (List.mem_singleton.mp h').symm
        · rcases List.mem_cons.mp hdm with h | h
          · exact absurd h.symm hch
          · exact h
    | punct acc =>
      rw [tokRun_punct_cons]
      by_cases hpu : isPunct ch = true
      · rw [if_pos hpu]
        apply ih (.punct (acc ++ [ch]))
        obtain ⟨mid, pr, rfl, hmid, hpr⟩ := hst
        show MathTok _
        refine ⟨mid, pr ++ [ch], by simp, hmid, ?_⟩
        intro c hc
        rcases List.mem_append.mp hc with h' | h'
        · exact hpr c h'
        · rw [List.mem_singleton.mp h']
          exact hpu
      · rw [if_neg hpu]
        by_cases hsp : pyIsSpace ch = true
        · rw [if_pos hsp]
          exact tok_result_cons acc _ (Or.inr hst) (tok_result_sp _ (ih .spaces trivial))
        · rw [if_neg hsp]
          by_cases hch : ch = '$'
          · rw [if_pos hch]
            subst hch
            by_cases hcon : rest.contains '$' = true
            · rw [if_pos hcon]
              exact tok_result_cons acc _ (Or.inr hst)
                (ih (.span ['$']) ⟨⟨[], rfl, by simp⟩, mem_of_contains rest '$' hcon⟩)
            · rw [if_neg hcon]
              exact tok_result_cons acc _ (Or.inr hst)
                (ih (.main ['$']) (Or.inr (Or.inr ⟨dollar_singleton,
                  not_mem_of_contains_false rest '$' (Bool.eq_false_iff.mpr hcon)⟩)))
          · rw [if_neg hch]
            have hsp' : pyIsSpace ch = false := Bool.eq_false_iff.mpr hsp
            exact tok_result_cons acc _ (Or.inr hst)
              (ih (.main [ch]) (Or.inr (Or.inl (pure_singleton ch hsp' hch))))

theorem tokenize_ok (l : List Char) :
    (∀ t ∈ tokenize l, t = [' '] ∨ NTok t) ∧ nsOk (dropSpaceToks (tokenize l)) :=
  tokRun_ok l (.main []) (Or.inl rfl)

theorem joinSp_single (t : List Char) : joinSp [t] = t := rfl

theorem joinSp_cons2 (t t' : List Char) (ts : List (List Char)) :
    joinSp (t :: t' :: ts) = t ++ ' ' :: joinSp (t' :: ts) := rfl

theorem seps_single (t : List Char) : seps [t] = [t] := rfl

theorem seps_cons2 (t t' : List Char) (ts : List (List Char)) :
    seps (t :: t' :: ts) = t :: [' '] :: seps (t' :: ts) := rfl

theorem seps_cons_sepsTail (t : List Char) (ts : List (List Char)) :
    seps (t :: ts) = t :: sepsTail ts := by
  cases ts with
  | nil => rfl
  | cons t' ts => rfl

theorem joinSp_ne_nil (ts : List (List Char)) (hne : ts ≠ []) (hn : ∀ t ∈ ts, NTok t) :
    joinSp ts ≠ [] := by
  cases ts with
  | nil => exact absurd rfl hne
  | cons t ts =>
    cases ts with
    | nil => exact ntok_ne_nil t (hn t (List.mem_cons_self t []))
    | cons t' ts' =>
      rw [joinSp_cons2]
      intro h
      rcases List.append_eq_nil.mp h with ⟨h1, h2⟩
      exact List.cons_ne_nil _ _ h2

theorem joinSp_append (ts1 : List (List Char)) (hne : ts1 ≠ []) :
    ∀ t ts2, joinSp (ts1 ++ t :: ts2) = joinSp ts1 ++ ' ' :: joinSp (t :: ts2) := by
  induction ts1 with
  | nil => exact absurd rfl hne
  | cons x ts1 ih =>
    intro t ts2
    cases ts1 with
    | nil => rfl
    | cons x' ts1' =>
      have hl : (x :: x' :: ts1') ++ t :: ts2 = x :: x' :: (ts1' ++ t :: ts2) := rfl
      rw [hl, joinSp_cons2, joinSp_cons2]
      have ih' : joinSp (x' :: (ts1' ++ t :: ts2)) =
          joinSp (x' :: ts1') ++ ' ' :: joinSp (t :: ts2) := ih (List.cons_ne_nil x' ts1') t ts2
      rw [ih']
      simp

theorem joinSp_append_single (ts : List (List Char)) (hne : ts ≠ []) (t : List Char) :
    joinSp (ts ++ [t]) = joinSp ts ++ ' ' :: t := by
  rw [joinSp_append ts hne t [], joinSp_single]

theorem joinSp_length_ge_head (t : List Char) (ts : List (List Char)) :
    t.length ≤ (joinSp (t :: ts)).length := by
  cases ts with
  | nil => exact le_refl _
  | cons t' ts' =>
    rw [joinSp_cons2, List.length_append]
    omega

theorem joinSp_last_not_space :
    ∀ ts : List (List Char), (∀ t ∈ ts, NTok t) →
      ∀ c, (joinSp ts).getLast? = some c → pyIsSpace c = false := by
  intro ts
  induction ts with
  | nil => intro _ c hc; simp [joinSp] at hc
  | cons t ts ih =>
    intro hn c hc
    cases ts with
    | nil =>
      rw [joinSp_single] at hc
      exact ntok_last_not_space t (hn t (List.mem_cons_self t [])) c hc
    | cons t' ts' =>
      rw [joinSp_cons2] at hc
      have hne : joinSp (t' :: ts') ≠ [] :=
        joinSp_ne_nil (t' :: ts') (List.cons_ne_nil t' ts')
          (fun u hu => hn u (List.mem_cons_of_mem t hu))
      rw [List.getLast?_append] at hc
      have hne2 : (' ' :: joinSp (t' :: ts')).getLast? = (joinSp (t' :: ts')).getLast? := by
        rw [show (' ' :: joinSp (t' :: ts')) = [' '] ++ joinSp (t' :: ts') from rfl,
          List.getLast?_append]
        have hs : ((joinSp (t' :: ts')).getLast?).isSome := List.getLast?_isSome.mpr hne
        obtain ⟨x, hx⟩ := Option.isSome_iff_exists.mp hs
        rw [hx, Option.or_some]
      rw [hne2] at hc
      have hs : ((joinSp (t' :: ts')).getLast?).isSome := List.getLast?_isSome.mpr hne
      obtain ⟨x, hx⟩ := Option.isSome_iff_exists.mp hs
      rw [hx, Option.or_some] at hc
      have hxc : x = c := by injection hc
      rw [← hxc]
      exact ih (fun u hu => hn u (List.mem_cons_of_mem t hu)) x hx

theorem rstrip_joinSp (ts : List (List Char)) (hn : ∀ t ∈ ts, NTok t) :
    rstrip (joinSp ts) = joinSp ts :=
  rstrip_eq_self _ (joinSp_last_not_space ts hn)

theorem endsSp_eq_false_of_last (l : List Char)
    (h : ∀ c, l.getLast? = some c → pyIsSpace c = false) : endsSp l = false := by
  unfold endsSp
  cases hl : l.getLast? with
  | none => rfl
  | some c =>
    have := h c hl
    have hcs : c ≠ ' ' := by
      intro h'
      subst h'
      exact absurd this (by simp [pyIsSpace_sp])
    simp [hcs]

theorem endsSp_joinSp (ts : List (List Char)) (hn : ∀ t ∈ ts, NTok t) :
    endsSp (joinSp ts) = false :=
  endsSp_eq_false_of_last _ (joinSp_last_not_space ts hn)

theorem endsSp_append_space (l : List Char) : endsSp (l ++ [' ']) = true := by
  unfold endsSp
  rw [List.getLast?_concat]
  rfl

theorem joinSp_dollarFree (ts : List (List Char)) (h : ∀ t ∈ ts, PureTok t) :
    '$' ∉ joinSp ts := by
  induction ts with
  | nil => simp [joinSp]
  | cons t ts ih =>
    cases ts with
    | nil =>
      rw [joinSp_single]
      intro hmem
      exact ((h t (List.mem_cons_self t [])).2 '$' hmem).2 rfl
    | cons t' ts' =>
      rw [joinSp_cons2]
      intro hmem
      rcases List.mem_append.mp hmem with h' | h'
      · exact ((h t (List.mem_cons_self t _)).2 '$' h').2 rfl
      · rcases List.mem_cons.mp h' with h'' | h''
        · exact absurd h''.symm (by decide)
        · exact ih (fun u hu => h u (List.mem_cons_of_mem t hu)) h''

theorem nsOk_tail (t : List Char) (ts : List (List Char))
    (h : nsOk (t :: ts)) (hpm : PureTok t ∨ MathTok t) : nsOk ts := by
  rcases h with ⟨_, h2⟩ | ⟨hd, _⟩
  · exact h2
  · obtain ⟨tl, rfl, htl⟩ := hd
    rcases hpm with hp | hm
    · exact absurd rfl (hp.2 '$' (List.mem_cons_self '$' tl)).2
    · obtain ⟨mid, pr, heq, hmid, _⟩ := hm
      have : tl = mid ++ '$' :: pr := by injection heq
      subst this
      exact absurd rfl (htl '$' (by simp)).2

theorem nsOk_dollar_tail (t : List Char) (ts : List (List Char))
    (h : nsOk (t :: ts)) (hd : DollarTok t) : ∀ u ∈ ts, PureTok u := by
  rcases h with ⟨hpm, _⟩ | ⟨_, h2⟩
  · obtain ⟨tl, rfl, htl⟩ := hd
    rcases hpm with hp | hm
    · exact absurd rfl (hp.2 '$' (List.mem_cons_self '$' tl)).2
    · obtain ⟨mid, pr, heq, hmid, _⟩ := hm
      have : tl = mid ++ '$' :: pr := by injection heq
      subst this
      exact absurd rfl (htl '$' (by simp)).2
  · exact h2

theorem nsOk_append_left (a b : List (List Char)) (h : nsOk (a ++ b)) : nsOk a := by
  induction a with
  | nil => trivial
  | cons t a' ih =>
    rcases h with ⟨h1, h2⟩ | ⟨hd, hall⟩
    · exact Or.inl ⟨h1, ih h2⟩
    · exact Or.inr ⟨hd, fun u hu => hall u (List.mem_append_left b hu)⟩

theorem nsOk_append_right (a b : List (List Char)) (h : nsOk (a ++ b)) : nsOk b := by
  induction a with
  | nil => exact h
  | cons t a' ih =>
    rcases h with ⟨_, h2⟩ | ⟨_, hall⟩
    · exact ih h2
    · exact nsOk_of_all_pure b (fun u hu => hall u (List.mem_append_right a' hu))

theorem tokRun_spaces_eq_main (r : List Char)
    (h : ∀ c, r.head? = some c → pyIsSpace c = false) :
    tokRun .spaces r = tokRun (.main []) r := by
  cases r with
  | nil => rfl
  | cons c rest =>
    have hc : pyIsSpace c = false := h c rfl
    rw [tokRun_spaces_cons, tokRun_main_cons, hc]
    simp

theorem joinSp_head? (t : List Char) (ts : List (List Char)) (hne : t ≠ []) :
    (joinSp (t :: ts)).head? = t.head? := by
  cases ts with
  | nil => rfl
  | cons t' ts' =>
    rw [joinSp_cons2]
    cases t with
    | nil => exact absurd rfl hne
    | cons c cs => rfl

theorem tokenize_step_pure (t r : List Char) (h : PureTok t) :
    tokRun (.main []) (t ++ ' ' :: r) = t :: [' '] :: tokRun .spaces r := by
  have h2 := tokRun_main_plain t h.2 [] (' ' :: r)
  rw [List.nil_append] at h2
  rw [h2, tokRun_main_cons, pyIsSpace_sp, if_pos rfl, if_neg h.1]
  rfl

theorem tokenize_step_math (t r : List Char) (h : MathTok t) :
    tokRun (.main []) (t ++ ' ' :: r) = t :: [' '] :: tokRun .spaces r := by
  obtain ⟨mid, pr, rfl, hmid, hpr⟩ := h
  have hshape : ('$' :: (mid ++ '$' :: pr)) ++ ' ' :: r =
      '$' :: (mid ++ '$' :: (pr ++ ' ' :: r)) := by simp
  rw [hshape, tokRun_main_cons, pyIsSpace_dollar]
  simp only [Bool.false_eq_true, if_false, if_pos rfl, List.nil_append]
  have hcon : (mid ++ '$' :: (pr ++ ' ' :: r)).contains '$' = true :=
    List.elem_iff.mpr (by simp)
  rw [hcon, if_pos rfl]
  rw [tokRun_span_acc mid hmid ['$'] (pr ++ ' ' :: r)]
  rw [tokRun_punct_acc pr hpr (['$'] ++ (mid ++ ['$'])) (' ' :: r)]
  rw [tokRun_punct_cons, show isPunct ' ' = false from rfl]
  simp only [Bool.false_eq_true, if_false]
  rw [pyIsSpace_sp, if_pos rfl]
  simp

theorem tokenize_step_dollar (t r : List Char) (h : DollarTok t) (hr : '$' ∉ r) :
    tokRun (.main []) (t ++ ' ' :: r) = t :: [' '] :: tokRun .spaces r := by
  obtain ⟨tl, rfl, htl⟩ := h
  have hshape : ('$' :: tl) ++ ' ' :: r = '$' :: (tl ++ ' ' :: r) := by simp
  rw [hshape, tokRun_main_cons, pyIsSpace_dollar]
  simp only [Bool.false_eq_true, if_false, if_pos rfl, List.nil_append]
  have hcon : (tl ++ ' ' :: r).contains '$' = false := by
    apply contains_eq_false_of_not_mem
    intro hmem
    rcases List.mem_append.mp hmem with h' | h'
    · exact (htl '$' h').2 rfl
    · rcases List.mem_cons.mp h' with h'' | h''
      · exact absurd h'' (by decide)
      · exact hr h''
  rw [hcon]
  simp only [Bool.false_eq_true, if_false]
  rw [tokRun_main_plain tl htl ['$'] (' ' :: r)]
  rw [tokRun_main_cons, pyIsSpace_sp, if_pos rfl]
  rw [if_neg (by simp : ¬(['$'] ++ tl = []))]
  rfl

theorem tokenize_joinSp : ∀ ts : List (List Char), (∀ t ∈ ts, NTok t) → nsOk ts →
    ts ≠ [] → tokenize (joinSp ts) = seps ts := by
  intro ts
  induction ts with
  | nil => intro _ _ h; exact absurd rfl h
  | cons t ts ih =>
    intro hn hns _
    cases ts with
    | nil =>
      rw [joinSp_single, seps_single]
      exact tokenize_ntok t (hn t (List.mem_cons_self t []))
    | cons t' ts' =>
      rw [joinSp_cons2, seps_cons2]
      have hnt : NTok t := hn t (List.mem_cons_self t _)
      have hn' : ∀ u ∈ t' :: ts', NTok u := fun u hu => hn u (List.mem_cons_of_mem t hu)
      have hhead : ∀ c, (joinSp (t' :: ts')).head? = some c → pyIsSpace c = false := by
        intro c hc
        rw [joinSp_head? t' ts' (ntok_ne_nil t' (hn' t' (List.mem_cons_self t' ts')))] at hc
        cases ht' : t' with
        | nil =>
          rw [ht'] at hc
          exact absurd hc (by simp)
        | cons c0 cs =>
          rw [ht'] at hc
          have hc0 : c0 = c := by
            have : some c0 = some c := hc
            injection this
          rw [← hc0]
          exact ntok_head_not_space t' (hn' t' (List.mem_cons_self t' ts')) c0 cs ht'
      have hsm : tokRun .spaces (joinSp (t' :: ts')) =
          tokRun (.main []) (joinSp (t' :: ts')) := tokRun_spaces_eq_main _ hhead
      show tokRun (.main []) (t ++ ' ' :: joinSp (t' :: ts')) = _
      rcases hnt with hp | hm | hd
      · have ih' : tokRun (.main []) (joinSp (t' :: ts')) = seps (t' :: ts') :=
          ih hn' (nsOk_tail t _ hns (Or.inl hp)) (List.cons_ne_nil t' ts')
        rw [tokenize_step_pure t _ hp, hsm, ih']
      · have ih' : tokRun (.main []) (joinSp (t' :: ts')) = seps (t' :: ts') :=
          ih hn' (nsOk_tail t _ hns (Or.inr hm)) (List.cons_ne_nil t' ts')
        rw [tokenize_step_math t _ hm, hsm, ih']
      · have hall := nsOk_dollar_tail t _ hns hd
        have ih' : tokRun (.main []) (joinSp (t' :: ts')) = seps (t' :: ts') :=
          ih hn' (nsOk_of_all_pure _ hall) (List.cons_ne_nil t' ts')
        rw [tokenize_step_dollar t _ hd (joinSp_dollarFree _ hall), hsm, ih']

theorem fillAux_nil (w : Nat) (cur : List Char) (n : Nat) (lines : List (List Char)) :
    fillAux w cur n lines [] = if cur = [] then lines else lines ++ [rstrip cur] := rfl

theorem fillAux_cons (w : Nat) (cur : List Char) (n : Nat) (lines : List (List Char))
    (t : List Char) (ts : List (List Char)) :
    fillAux w cur n lines (t :: ts) =
      if t = [' '] then
        if cur ≠ [] ∧ endsSp cur = false then
          if n + 1 > w then fillAux w [] 0 (lines ++ [rstrip cur]) ts
          else fillAux w (cur ++ [' ']) (n + 1) lines ts
        else fillAux w cur n lines ts
      else
        if cur = [] then fillAux w t t.length lines ts
        else
          if n + ((if endsSp cur then ([] : List Char) else [' ']).length + t.length) > w then
            fillAux w t t.length (lines ++ [rstrip cur]) ts
          else
            fillAux w (cur ++ (if endsSp cur then ([] : List Char) else [' ']) ++ t)
              (n + ((if endsSp cur then ([] : List Char) else [' ']).length + t.length))
              lines ts := rfl

theorem refill_aux (w : Nat) :
    ∀ (ts2 ts1 : List (List Char)) (lines : List (List Char)), ts1 ≠ [] →
      (∀ t ∈ ts1, NTok t) → (∀ t ∈ ts2, NTok t) →
      (joinSp (ts1 ++ ts2)).length ≤ w →
      fillAux w (joinSp ts1) (joinSp ts1).length lines (sepsTail ts2) =
        lines ++ [joinSp (ts1 ++ ts2)] := by
  intro ts2
  induction ts2 with
  | nil =>
    intro ts1 lines h1 hn1 _ _
    show fillAux w (joinSp ts1) _ lines [] = _
    rw [fillAux_nil, if_neg (joinSp_ne_nil ts1 h1 hn1), rstrip_joinSp ts1 hn1,
      List.append_nil]
  | cons t ts2' ih =>
    intro ts1 lines h1 hn1 hn2 hlen
    have hnt : NTok t := hn2 t (List.mem_cons_self t ts2')
    have hst : sepsTail (t :: ts2') = [' '] :: t :: sepsTail ts2' := by
      rw [show sepsTail (t :: ts2') = [' '] :: seps (t :: ts2') from rfl, seps_cons_sepsTail]
    have hJ : (joinSp (ts1 ++ t :: ts2')).length =
        (joinSp ts1).length + 1 + (joinSp (t :: ts2')).length := by
      rw [joinSp_append ts1 h1 t ts2']
      simp [List.length_append]
      omega
    have hX : t.length ≤ (joinSp (t :: ts2')).length := joinSp_length_ge_head t ts2'
    rw [hst, fillAux_cons, if_pos rfl,
      if_pos ⟨joinSp_ne_nil ts1 h1 hn1, endsSp_joinSp ts1 hn1⟩,
      if_neg (by omega : ¬((joinSp ts1).length + 1 > w))]
    rw [fillAux_cons, if_neg (ntok_ne_sp t hnt),
      if_neg (by simp : ¬(joinSp ts1 ++ [' '] = [])), endsSp_append_space]
    simp only [if_pos rfl, if_true, List.length_nil, List.nil_append, Nat.zero_add,
      List.append_nil]
    rw [if_neg (by omega : ¬((joinSp ts1).length + 1 + t.length > w))]
    have hcur : (joinSp ts1 ++ [' ']) ++ t = joinSp (ts1 ++ [t]) := by
      rw [joinSp_append_single ts1 h1 t]
      simp
    have hlen2 : (joinSp ts1).length + 1 + t.length = (joinSp (ts1 ++ [t])).length := by
      rw [joinSp_append_single ts1 h1 t]
      simp [List.length_append]
      omega
    rw [hcur, hlen2]
    have happ : (ts1 ++ [t]) ++ ts2' = ts1 ++ t :: ts2' := by simp
    have ih' := ih (ts1 ++ [t]) lines (by simp)
      (by
        intro u hu
        rcases List.mem_append.mp hu with h' | h'
        · exact hn1 u h'
        · rw [List.mem_singleton.mp h']
          exact hnt)
      (fun u hu => hn2 u (List.mem_cons_of_mem t hu))
      (by rw [happ]; exact hlen)
    rw [ih', happ]

theorem fill_single_tok (w : Nat) (t : List Char) (hnt : NTok t) :
    fillAux w [] 0 [] [t] = [t] := by
  rw [fillAux_cons, if_neg (ntok_ne_sp t hnt), if_pos rfl, fillAux_nil,
    if_neg (ntok_ne_nil t hnt), ntok_rstrip t hnt]
  rfl

theorem wrapLine_joinSp_self (w : Nat) (ts : List (List Char)) (hne : ts ≠ [])
    (hn : ∀ t ∈ ts, NTok t) (hns : nsOk ts)
    (hw : (joinSp ts).length ≤ w ∨ ∃ t, ts = [t]) :
    wrapLine w (joinSp ts) = [joinSp ts] := by
  rcases hw with hlen | ⟨t, rfl⟩
  · unfold wrapLine
    rw [tokenize_joinSp ts hn hns hne]
    cases ts with
    | nil => exact absurd rfl hne
    | cons t ts' =>
      rw [seps_cons_sepsTail, fillAux_cons,
        if_neg (ntok_ne_sp t (hn t (List.mem_cons_self t ts'))), if_pos rfl]
      have h0 := refill_aux w ts' [t] [] (by simp)
        (by
          intro u hu
          rw [List.mem_singleton.mp hu]
          exact hn t (List.mem_cons_self t ts'))
        (fun u hu => hn u (List.mem_cons_of_mem t hu))
        (by simpa using hlen)
      rw [joinSp_single] at h0
      rw [h0]
      simp
  · rw [joinSp_single]
    unfold wrapLine
    rw [tokenize_ntok t (hn t (List.mem_cons_self t []))]
    exact fill_single_tok w t (hn t (List.mem_cons_self t []))

theorem emit_joinSp (w : Nat) (T0 : List (List Char)) (ts : List (List Char))
    (hne : ts ≠ []) (hmem : ∀ t ∈ ts, t ∈ T0) (hn : ∀ t ∈ ts, NTok t) (hns : nsOk ts)
    (hw : (joinSp ts).length ≤ w ∨ ∃ t, ts = [t]) : EmitOk w T0 (joinSp ts) := by
  refine ⟨joinSp_ne_nil ts hne hn, ?_, wrapLine_joinSp_self w ts hne hn hns hw⟩
  rcases hw with h | ⟨t, rfl⟩
  · exact Or.inl h
  · rw [joinSp_single]
    exact Or.inr (hmem t (List.mem_cons_self t []))

theorem fill_master (w : Nat) (T0 : List (List Char)) :
    ∀ (toks ts : List (List Char)) (cur : List Char) (n : Nat) (lines : List (List Char)),
      (∀ t ∈ toks, t = [' '] ∨ NTok t) →
      (∀ t ∈ toks, t ∈ T0) →
      (∀ t ∈ ts, t ∈ T0) →
      (∀ t ∈ ts, NTok t) →
      nsOk (ts ++ dropSpaceToks toks) →
      ((ts = [] ∧ cur = [] ∧ n = 0) ∨
        (ts ≠ [] ∧
          ((cur = joinSp ts ∧ n = (joinSp ts).length) ∨
           (cur = joinSp ts ++ [' '] ∧ n = (joinSp ts).length + 1 ∧ n ≤ w)) ∧
          ((joinSp ts).length ≤ w ∨ ∃ t, ts = [t]))) →
      (∀ l ∈ lines, EmitOk w T0 l) →
      ∀ l ∈ fillAux w cur n lines toks, EmitOk w T0 l := by
  intro toks
  induction toks with
  | nil =>
    intro ts cur n lines _ _ hmem hn hns hstate hlines l hl
    rw [fillAux_nil] at hl
    have hnsts : nsOk ts := by
      rw [dropSpaceToks_nil, List.append_nil] at hns
      exact hns
    rcases hstate with ⟨rfl, rfl, rfl⟩ | ⟨hne, hcur, hwdisj⟩
    · rw [if_pos rfl] at hl
      exact hlines l hl
    · rcases hcur with ⟨rfl, rfl⟩ | ⟨rfl, hn2, hnw⟩
      · rw [if_neg (joinSp_ne_nil ts hne hn), rstrip_joinSp ts hn] at hl
        rcases List.mem_append.mp hl with h' | h'
        · exact hlines l h'
        · rw [List.mem_singleton.mp h']
          exact emit_joinSp w T0 ts hne hmem hn hnsts hwdisj
      · rw [if_neg (by simp), rstrip_append_space, rstrip_joinSp ts hn] at hl
        rcases List.mem_append.mp hl with h' | h'
        · exact hlines l h'
        · rw [List.mem_singleton.mp h']
          exact emit_joinSp w T0 ts hne hmem hn hnsts (Or.inl (by omega))
  | cons t toks' ih =>
    intro ts cur n lines htoks htmem hmem hn hns hstate hlines l hl
    rw [fillAux_cons] at hl
    have htoks' : ∀ u ∈ toks', u = [' '] ∨ NTok u :=
      fun u hu => htoks u (List.mem_cons_of_mem t hu)
    have htmem' : ∀ u ∈ toks', u ∈ T0 := fun u hu => htmem u (List.mem_cons_of_mem t hu)
    by_cases hsp : t = [' ']
    · rw [if_pos hsp] at hl
      rw [show dropSpaceToks (t :: toks') = dropSpaceToks toks' by
        rw [hsp]; exact dropSpaceToks_cons_sp toks'] at hns
      rcases hstate with ⟨rfl, rfl, rfl⟩ | ⟨hne, hcur, hwdisj⟩
      · rw [if_neg (by simp)] at hl
        exact ih [] [] 0 lines htoks' htmem' hmem hn hns (Or.inl ⟨rfl, rfl, rfl⟩) hlines l hl
      · rcases hcur with ⟨rfl, rfl⟩ | ⟨rfl, hn2, hnw⟩
        · rw [if_pos ⟨joinSp_ne_nil ts hne hn, endsSp_joinSp ts hn⟩] at hl
          by_cases hov : (joinSp ts).length + 1 > w
          · rw [if_pos hov, rstrip_joinSp ts hn] at hl
            have hemit := emit_joinSp w T0 ts hne hmem hn (nsOk_append_left ts _ hns) hwdisj
            refine ih [] [] 0 (lines ++ [joinSp ts]) htoks' htmem'
              (fun u hu => absurd hu (List.not_mem_nil u))
              (fun u hu => absurd hu (List.not_mem_nil u))
              (by rw [List.nil_append]; exact nsOk_append_right ts _ hns)
              (Or.inl ⟨rfl, rfl, rfl⟩) ?_ l hl
            intro l' hl'
            rcases List.mem_append.mp hl' with h' | h'
            · exact hlines l' h'
            · rw [List.mem_singleton.mp h']
              exact hemit
          · rw [if_neg hov] at hl
            exact ih ts (joinSp ts ++ [' ']) ((joinSp ts).length + 1) lines htoks' htmem'
              hmem hn hns (Or.inr ⟨hne, Or.inr ⟨rfl, rfl, by omega⟩, hwdisj⟩) hlines l hl
        · rw [if_neg (by simp [endsSp_append_space])] at hl
          exact ih ts (joinSp ts ++ [' ']) n lines htoks' htmem' hmem hn hns
            (Or.inr ⟨hne, Or.inr ⟨rfl, hn2, hnw⟩, hwdisj⟩) hlines l hl
    · have hnt : NTok t := by
        rcases htoks t (List.mem_cons_self t toks') with h' | h'
        · exact absurd h' hsp
        · exact h'
      rw [if_neg hsp] at hl
      rw [dropSpaceToks_cons_ns t toks' hsp] at hns
      have hsingle : ∀ lines2, (∀ l' ∈ lines2, EmitOk w T0 l') →
          l ∈ fillAux w t t.length lines2 toks' → EmitOk w T0 l := by
        intro lines2 hlines2 hl2
        refine ih [t] t t.length lines2 htoks' htmem' ?_ ?_ ?_ ?_ hlines2 l hl2
        · intro u hu
          rw [List.mem_singleton.mp hu]
          exact htmem t (List.mem_cons_self t toks')
        · intro u hu
          rw [List.mem_singleton.mp hu]
          exact hnt
        · rcases hstate with ⟨rfl, _, _⟩ | _
          · simpa using hns
          · exact nsOk_append_right ts _ hns
        · exact Or.inr ⟨by simp, Or.inl ⟨(joinSp_single t).symm,
            (congrArg List.length (joinSp_single t)).symm⟩, Or.inr ⟨t, rfl⟩⟩
      rcases hstate with ⟨rfl, rfl, rfl⟩ | ⟨hne, hcur, hwdisj⟩
      · rw [if_pos rfl] at hl
        exact hsingle lines hlines hl
      · rcases hcur with ⟨rfl, rfl⟩ | ⟨rfl, hn2, hnw⟩
        · rw [if_neg (joinSp_ne_nil ts hne hn)] at hl
          rw [if_neg (by simp [endsSp_joinSp ts hn] :
            ¬(endsSp (joinSp ts) = true))] at hl
          simp only [List.length_singleton] at hl
          by_cases hov : (joinSp ts).length + (1 + t.length) > w
          · rw [if_pos hov, rstrip_joinSp ts hn] at hl
            have hemit := emit_joinSp w T0 ts hne hmem hn (nsOk_append_left ts _ hns) hwdisj
            refine hsingle (lines ++ [joinSp ts]) ?_ hl
            intro l' hl'
            rcases List.mem_append.mp hl' with h' | h'
            · exact hlines l' h'
            · rw [List.mem_singleton.mp h']
              exact hemit
          · rw [if_neg hov] at hl
            have hcur2 : joinSp ts ++ [' '] ++ t = joinSp (ts ++ [t]) := by
              rw [joinSp_append_single ts hne t]
              simp
            have hlen2 : (joinSp ts).length + (1 + t.length) =
                (joinSp (ts ++ [t])).length := by
              rw [joinSp_append_single ts hne t]
              simp [List.length_append]
              omega
            rw [hcur2, hlen2] at hl
            refine ih (ts ++ [t]) _ _ lines htoks' htmem' ?_ ?_ ?_ ?_ hlines l hl
            · intro u hu
              rcases List.mem_append.mp hu with h' | h'
              · exact hmem u h'
              · rw [List.mem_singleton.mp h']
                exact htmem t (List.mem_cons_self t toks')
            · intro u hu
              rcases List.mem_append.mp hu with h' | h'
              · exact hn u h'
              · rw [List.mem_singleton.mp h']
                exact hnt
            · rw [List.append_assoc]
              simpa using hns
            · exact Or.inr ⟨by simp, Or.inl ⟨rfl, rfl⟩, Or.inl (by omega)⟩
        · rw [if_neg (by simp : ¬(joinSp ts ++ [' '] = []))] at hl
          rw [if_pos (endsSp_append_space (joinSp ts))] at hl
          simp only [List.length_nil, Nat.zero_add, List.append_nil] at hl
          by_cases hov : n + t.length > w
          · rw [if_pos hov, rstrip_append_space, rstrip_joinSp ts hn] at hl
            have hemit := emit_joinSp w T0 ts hne hmem hn (nsOk_append_left ts _ hns)
              (Or.inl (by omega))
            refine hsingle (lines ++ [joinSp ts]) ?_ hl
            intro l' hl'
            rcases List.mem_append.mp hl' with h' | h'
            · exact hlines l' h'
            · rw [List.mem_singleton.mp h']
              exact hemit
          · rw [if_neg hov] at hl
            have hcur2 : joinSp ts ++ [' '] ++ t = joinSp (ts ++ [t]) := by
              rw [joinSp_append_single ts hne t]
              simp
            have hlen2 : n + t.length = (joinSp (ts ++ [t])).length := by
              rw [joinSp_append_single ts hne t, hn2]
              simp [List.length_append]
              omega
            rw [hcur2, hlen2] at hl
            refine ih (ts ++ [t]) _ _ lines htoks' htmem' ?_ ?_ ?_ ?_ hlines l hl
            · intro u hu
              rcases List.mem_append.mp hu with h' | h'
              · exact hmem u h'
              · rw [List.mem_singleton.mp h']
                exact htmem t (List.mem_cons_self t toks')
            · intro u hu
              rcases List.mem_append.mp hu with h' | h'
              · exact hn u h'
              · rw [List.mem_singleton.mp h']
                exact hnt
            · rw [List.append_assoc]
              simpa using hns
            · exact Or.inr ⟨by simp, Or.inl ⟨rfl, rfl⟩, Or.inl (by omega)⟩

theorem wrapLine_ok (w : Nat) (line : List Char) :
    ∀ l ∈ wrapLine w line, EmitOk w (tokenize line) l := by
  intro l hl
  have h := tokenize_ok line
  exact fill_master w (tokenize line) (tokenize line) [] [] 0 [] h.1 (fun t ht => ht)
    (fun t ht => absurd ht (List.not_mem_nil t))
    (fun t ht => absurd ht (List.not_mem_nil t))
    h.2 (Or.inl ⟨rfl, rfl, rfl⟩) (fun l' hl' => absurd hl' (List.not_mem_nil l')) l hl

theorem splitlinesAux_nil (sk : Bool) (acc : List Char) :
    splitlinesAux sk acc [] = if acc = [] then [] else [acc.reverse] := rfl

theorem splitlinesAux_cons (sk : Bool) (acc : List Char) (c : Char) (rest : List Char) :
    splitlinesAux sk acc (c :: rest) =
      if sk = true ∧ c = '\n' then splitlinesAux false acc rest
      else if c = '\r' then acc.reverse :: splitlinesAux true [] rest
      else if isBreak c then acc.reverse :: splitlinesAux false [] rest
      else splitlinesAux false (c :: acc) rest := rfl

theorem splitlinesAux_noBreak :
    ∀ (l : List Char) (sk : Bool) (acc : List Char), (∀ c ∈ acc, isBreak c = false) →
      ∀ out ∈ splitlinesAux sk acc l, noBreak out := by
  intro l
  induction l with
  | nil =>
    intro sk acc hacc out hout
    rw [splitlinesAux_nil] at hout
    split at hout
    · exact absurd hout (List.not_mem_nil out)
    · rw [List.mem_singleton.mp hout]
      intro c hc
      exact hacc c (List.mem_reverse.mp hc)
  | cons c rest ih =>
    intro sk acc hacc out hout
    rw [splitlinesAux_cons] at hout
    split at hout
    · exact ih false acc hacc out hout
    · split at hout
      · rcases List.mem_cons.mp hout with rfl | hout'
        · intro c' hc'
          exact hacc c' (List.mem_reverse.mp hc')
        · exact ih true [] (fun c' hc' => absurd hc' (List.not_mem_nil c')) out hout'
      · split at hout
        · rcases List.mem_cons.mp hout with rfl | hout'
          · intro c' hc'
            exact hacc c' (List.mem_reverse.mp hc')
          · exact ih false [] (fun c' hc' => absurd hc' (List.not_mem_nil c')) out hout'
        · rename_i hbr
          refine ih false (c :: acc) ?_ out hout
          intro c' hc'
          rcases List.mem_cons.mp hc' with rfl | hc''
          · exact Bool.eq_false_iff.mpr hbr
          · exact hacc c' hc''

theorem splitlines_noBreak (t : List Char) : ∀ out ∈ splitlines t, noBreak out :=
  splitlinesAux_noBreak t false [] (fun c hc => absurd hc (List.not_mem_nil c))

theorem splitlinesAux_chunk :
    ∀ (l : List Char) (acc rest : List Char), (∀ c ∈ l, isBreak c = false) →
      splitlinesAux false acc (l ++ rest) = splitlinesAux false (l.reverse ++ acc) rest := by
  intro l
  induction l with
  | nil => intro acc rest _; simp
  | cons c l' ih =>
    intro acc rest hl
    have hbr : isBreak c = false := hl c (List.mem_cons_self c l')
    have hcr : c ≠ '\r' := by
      intro h
      subst h
      exact absurd hbr (by decide)
    rw [List.cons_append, splitlinesAux_cons, if_neg (by simp), if_neg hcr,
      if_neg (by simp [hbr]),
      ih (c :: acc) rest (fun c' hc' => hl c' (List.mem_cons_of_mem c hc'))]
    congr 1
    simp

theorem splitlines_joinNl :
    ∀ L : List (List Char), (∀ l ∈ L, l ≠ [] ∧ noBreak l) → splitlines (joinNl L) = L := by
  intro L
  induction L with
  | nil => intro _; rfl
  | cons l L' ih =>
    intro h
    obtain ⟨hne, hnb⟩ := h l (List.mem_cons_self l L')
    cases L' with
    | nil =>
      show splitlinesAux false [] l = [l]
      have h1 := splitlinesAux_chunk l [] [] hnb
      rw [List.append_nil, List.append_nil] at h1
      rw [h1, splitlinesAux_nil, if_neg (by simp [hne]), List.reverse_reverse]
    | cons l2 L'' =>
      show splitlinesAux false [] (l ++ '\n' :: joinNl (l2 :: L'')) = l :: l2 :: L''
      rw [splitlinesAux_chunk l [] ('\n' :: joinNl (l2 :: L'')) hnb]
      rw [splitlinesAux_cons, if_neg (by simp), if_neg (by decide), if_pos (by decide)]
      rw [List.append_nil, List.reverse_reverse]
      congr 1
      exact ih (fun u hu => h u (List.mem_cons_of_mem l hu))

theorem tokRun_noBreak :
    ∀ (l : List Char) (st : TokState), (∀ c ∈ l, isBreak c = false) →
      (∀ c ∈ stBuf st, isBreak c = false) →
      ∀ t ∈ tokRun st l, ∀ c ∈ t, isBreak c = false := by
  intro l
  induction l with
  | nil =>
    intro st hl hst t ht c hc
    cases st with
    | main cur =>
      have : tokRun (.main cur) [] = if cur = [] then [] else [cur] := rfl
      rw [this] at ht
      split at ht
      · exact absurd ht (List.not_mem_nil t)
      · rw [List.mem_singleton.mp ht] at hc
        exact hst c hc
    | spaces => exact absurd ht (List.not_mem_nil t)
    | span acc =>
      rw [show tokRun (.span acc) [] = [acc] from rfl] at ht
      rw [List.mem_singleton.mp ht] at hc
      exact hst c hc
    | punct acc =>
      rw [show tokRun (.punct acc) [] = [acc] from rfl] at ht
      rw [List.mem_singleton.mp ht] at hc
      exact hst c hc
  | cons ch rest ih =>
    intro st hl hst t ht c hc
    have hrest : ∀ c ∈ rest, isBreak c = false := fun c hc => hl c (List.mem_cons_of_mem ch hc)
    have hch : isBreak ch = false := hl ch (List.mem_cons_self ch rest)
    have hsp' : ∀ c ∈ ([' '] : List Char), isBreak c = false := by
      intro c' hc'
      rw [List.mem_singleton.mp hc']
      rfl
    have hdol : ∀ c ∈ (['$'] : List Char), isBreak c = false := by
      intro c' hc'
      rw [List.mem_singleton.mp hc']
      rfl
    have hext : ∀ (buf : List Char), (∀ c ∈ buf, isBreak c = false) →
        ∀ c ∈ buf ++ [ch], isBreak c = false := by
      intro buf hbuf c' hc'
      rcases List.mem_append.mp hc' with h' | h'
      · exact hbuf c' h'
      · rw [List.mem_singleton.mp h']
        exact hch
    cases st with
    | main cur =>
      rw [tokRun_main_cons] at ht
      split at ht
      · rcases List.mem_append.mp ht with h' | h'
        · split at h'
          · exact absurd h' (List.not_mem_nil t)
          · rw [List.mem_singleton.mp h'] at hc
            exact hst c hc
        · rcases List.mem_cons.mp h' with rfl | h''
          · exact hsp' c hc
          · exact ih .spaces hrest (fun c' hc' => absurd hc' (List.not_mem_nil c')) t h'' c hc
      · split at ht
        · rcases List.mem_append.mp ht with h' | h'
          · split at h'
            · exact absurd h' (List.not_mem_nil t)
            · rw [List.mem_singleton.mp h'] at hc
              exact hst c hc
          · split at h'
            · exact ih (.span ['$']) hrest hdol t h' c hc
            · exact ih (.main ['$']) hrest hdol t h' c hc
        · exact ih (.main (cur ++ [ch])) hrest (hext cur hst) t ht c hc
    | spaces =>
      rw [tokRun_spaces_cons] at ht
      split at ht
      · exact ih .spaces hrest (fun c' hc' => absurd hc' (List.not_mem_nil c')) t ht c hc
      · split at ht
        · split at ht
          · exact ih (.span ['$']) hrest hdol t ht c hc
          · exact ih (.main ['$']) hrest hdol t ht c hc
        · exact ih (.main [ch]) hrest
            (fun c' hc' => by rw [List.mem_singleton.mp hc']; exact hch) t ht c hc
    | span acc =>
      rw [tokRun_span_cons] at ht
      split at ht
      · exact ih (.punct (acc ++ ['$'])) hrest
          (by
            intro c' hc'
            rcases List.mem_append.mp hc' with h' | h'
            · exact hst c' h'
            · rw [List.mem_singleton.mp h']
              rfl) t ht c hc
      · exact ih (.span (acc ++ [ch])) hrest (hext acc hst) t ht c hc
    | punct acc =>
      rw [tokRun_punct_cons] at ht
      split at ht
      · exact ih (.punct (acc ++ [ch])) hrest (hext acc hst) t ht c hc
      · split at ht
        · rcases List.mem_cons.mp ht with rfl | h'
          · exact hst c hc
          · rcases List.mem_cons.mp h' with rfl | h''
            · exact hsp' c hc
            · exact ih .spaces hrest (fun c' hc' => absurd hc' (List.not_mem_nil c')) t h'' c hc
        · split at ht
          · rcases List.mem_cons.mp ht with rfl | h'
            · exact hst c hc
            · split at h'
              · exact ih (.span ['$']) hrest hdol t h' c hc
              · exact ih (.main ['$']) hrest hdol t h' c hc
          · rcases List.mem_cons.mp ht with rfl | h'
            · exact hst c hc
            · exact ih (.main [ch]) hrest
                (fun c' hc' => by rw [List.mem_singleton.mp hc']; exact hch) t h' c hc

theorem fill_noBreak (w : Nat) :
    ∀ (toks : List (List Char)) (cur : List Char) (n : Nat) (lines : List (List Char)),
      (∀ t ∈ toks, ∀ c ∈ t, isBreak c = false) →
      (∀ c ∈ cur, isBreak c = false) →
      (∀ l ∈ lines, noBreak l) →
      ∀ l ∈ fillAux w cur n lines toks, noBreak l := by
  intro toks
  induction toks with
  | nil =>
    intro cur n lines _ hcur hlines l hl
    rw [fillAux_nil] at hl
    split at hl
    · exact hlines l hl
    · rcases List.mem_append.mp hl with h' | h'
      · exact hlines l h'
      · rw [List.mem_singleton.mp h']
        intro c hc
        exact hcur c (rstrip_sublist_pyIsSpace cur c hc)
  | cons t ts ih =>
    intro cur n lines htoks hcur hlines l hl
    have htoks' : ∀ u ∈ ts, ∀ c ∈ u, isBreak c = false :=
      fun u hu => htoks u (List.mem_cons_of_mem t hu)
    have ht : ∀ c ∈ t, isBreak c = false := htoks t (List.mem_cons_self t ts)
    have hflush : ∀ l' ∈ lines ++ [rstrip cur], noBreak l' := by
      intro l' hl'
      rcases List.mem_append.mp hl' with h' | h'
      · exact hlines l' h'
      · rw [List.mem_singleton.mp h']
        intro c hc
        exact hcur c (rstrip_sublist_pyIsSpace cur c hc)
    have hcursp : ∀ c ∈ cur ++ [' '], isBreak c = false := by
      intro c hc
      rcases List.mem_append.mp hc with h' | h'
      · exact hcur c h'
      · rw [List.mem_singleton.mp h']
        rfl
    rw [fillAux_cons] at hl
    split at hl
    · split at hl
      · split at hl
        · exact ih [] 0 (lines ++ [rstrip cur]) htoks'
            (fun c hc => absurd hc (List.not_mem_nil c)) hflush l hl
        · exact ih (cur ++ [' ']) (n + 1) lines htoks' hcursp hlines l hl
      · exact ih cur n lines htoks' hcur hlines l hl
    · split at hl
      · exact ih t t.length lines htoks' ht hlines l hl
      · split at hl
        · split at hl
          · exact ih t t.length (lines ++ [rstrip cur]) htoks' ht hflush l hl
          · refine ih _ _ lines htoks' ?_ hlines l hl
            intro c hc
            rcases List.mem_append.mp hc with h' | h'
            · rcases List.mem_append.mp h' with h'' | h''
              · exact hcur c h''
              · exact absurd h'' (List.not_mem_nil c)
            · exact ht c h'
        · split at hl
          · exact ih t t.length (lines ++ [rstrip cur]) htoks' ht hflush l hl
          · refine ih _ _ lines htoks' ?_ hlines l hl
            intro c hc
            rcases List.mem_append.mp hc with h' | h'
            · rcases List.mem_append.mp h' with h'' | h''
              · exact hcur c h''
              · rw [List.mem_singleton.mp h'']
                rfl
            · exact ht c h'

theorem wrapLine_noBreak (w : Nat) (line : List Char) (hline : noBreak line) :
    ∀ l ∈ wrapLine w line, noBreak l := by
  intro l hl
  exact fill_noBreak w (tokenize line) [] 0 []
    (tokRun_noBreak line (.main []) hline (fun c hc => absurd hc (List.not_mem_nil c)))
    (fun c hc => absurd hc (List.not_mem_nil c))
    (fun l' hl' => absurd hl' (List.not_mem_nil l')) l hl

theorem flatMap_eq_self (L : List (List Char)) (f : List Char → List (List Char))
    (h : ∀ l ∈ L, f l = [l]) : L.flatMap f = L := by
  induction L with
  | nil => rfl
  | cons l L' ih =>
    rw [List.flatMap_cons, h l (List.mem_cons_self l L'),
      ih fun u hu => h u (List.mem_cons_of_mem l hu)]
    rfl

theorem wrapText_data (t : String) (w : Nat) :
    (wrapText t w).data = joinNl ((splitlines t.data).flatMap (fun l => wrapLine w l)) := rfl

theorem splitlines_wrapText (t : String) (w : Nat) :
    splitlines (wrapText t w).data = (splitlines t.data).flatMap (fun l => wrapLine w l) := by
  rw [wrapText_data]
  apply splitlines_joinNl
  intro l hl
  obtain ⟨src, hsrc, hl'⟩ := List.mem_flatMap.mp hl
  exact ⟨(wrapLine_ok w src l hl').1,
    wrapLine_noBreak w src (splitlines_noBreak t.data src hsrc) l hl'⟩

/-- Claim C9: wrapping is idempotent at a fixed width — applying
`wrap_text` a second time with the same width leaves its own output
unchanged. -/
theorem claim_C9 (t : String) (w : Nat) : wrapText (wrapText t w) w = wrapText t w := by
  have h1 : (wrapText (wrapText t w) w).data =
      joinNl ((splitlines (wrapText t w).data).flatMap (fun l => wrapLine w l)) := rfl
  have h2 : (splitlines (wrapText t w).data).flatMap (fun l => wrapLine w l) =
      (splitlines t.data).flatMap (fun l => wrapLine w l) := by
    rw [splitlines_wrapText]
    apply flatMap_eq_self
    intro l hl
    obtain ⟨src, hsrc, hl'⟩ := List.mem_flatMap.mp hl
    exact (wrapLine_ok w src l hl').2.2
  apply String.ext
  rw [h1, h2, wrapText_data]

/-- Claim C3: for the wrap width `w ≥ 1`, every line emitted by
`wrap_text` has at most `w` characters, except that a line consisting of
a single token (of the tokenization of its source line) may exceed `w`;
such a token is never split — the line is the token itself, in full. -/
theorem claim_C3 (t : String) (w : Nat) (hw : 1 ≤ w) :
    ∀ l ∈ splitlines (wrapText t w).data,
      l.length ≤ w ∨ ∃ src ∈ splitlines t.data, l ∈ tokenize src := by
  intro l hl
  rw [splitlines_wrapText] at hl
  obtain ⟨src, hsrc, hl'⟩ := List.mem_flatMap.mp hl
  rcases (wrapLine_ok w src l hl').2.1 with h | h
  · exact Or.inl h
  · exact Or.inr ⟨src, hsrc, h⟩

/-- Witness for C3 on the text "aa bb" at width 2: the emitted line
"aa" is within the budget. -/
theorem claim_C3_witness :
    ("aa".data.length ≤ 2 ∨ ∃ src ∈ splitlines "aa bb".data, "aa".data ∈ tokenize src) :=
  claim_C3 "aa bb" 2 (by decide) "aa".data (by decide)

theorem rstrip_decomp (l : List Char) :
    ∃ sps, l = rstrip l ++ sps ∧ ∀ c ∈ sps, pyIsSpace c = true := by
  have h := List.takeWhile_append_dropWhile (p := pyIsSpace) (l := l.reverse)
  have h2 := congrArg List.reverse h
  rw [List.reverse_append, List.reverse_reverse] at h2
  refine ⟨(l.reverse.takeWhile pyIsSpace).reverse, h2.symm, ?_⟩
  intro c hc
  rw [List.mem_reverse] at hc
  exact List.mem_takeWhile_imp hc

theorem rstrip_append_cases (cur x : List Char) :
    rstrip (cur ++ x) = rstrip cur ∨ rstrip (cur ++ x) = cur ++ rstrip x := by
  unfold rstrip
  rw [List.reverse_append, List.dropWhile_append]
  by_cases h : (List.dropWhile pyIsSpace x.reverse).isEmpty = true
  · rw [if_pos h]
    exact Or.inl rfl
  · rw [if_neg h]
    right
    rw [List.reverse_append, List.reverse_reverse]

theorem rstrip_append_ext (cur x : List Char) :
    ∃ ext, rstrip (cur ++ x) = rstrip cur ++ ext := by
  rcases rstrip_append_cases cur x with h | h
  · exact ⟨[], by rw [h, List.append_nil]⟩
  · obtain ⟨sps, hdec, _⟩ := rstrip_decomp cur
    refine ⟨sps ++ rstrip x, ?_⟩
    rw [h, ← List.append_assoc, ← hdec]

theorem rstrip_append_right_id (x t : List Char) (h : rstrip t = t) (hne : t ≠ []) :
    rstrip (x ++ t) = x ++ t := by
  have hdw : List.dropWhile pyIsSpace t.reverse = t.reverse := by
    have h3 := congrArg List.reverse h
    rwa [show (rstrip t).reverse = List.dropWhile pyIsSpace t.reverse from by
      unfold rstrip; rw [List.reverse_reverse]] at h3
  unfold rstrip
  rw [List.reverse_append, List.dropWhile_append, hdw]
  rw [if_neg (by simp [hne])]
  rw [List.reverse_append, List.reverse_reverse, List.reverse_reverse]

theorem fill_lines_mono (w : Nat) :
    ∀ (toks : List (List Char)) (cur : List Char) (n : Nat) (lines : List (List Char)),
      ∀ x ∈ lines, x ∈ fillAux w cur n lines toks := by
  intro toks
  induction toks with
  | nil =>
    intro cur n lines x hx
    rw [fillAux_nil]
    split
    · exact hx
    · exact List.mem_append_left _ hx
  | cons t ts ih =>
    intro cur n lines x hx
    rw [fillAux_cons]
    split
    · split
      · split
        · exact ih [] 0 (lines ++ [rstrip cur]) x (List.mem_append_left _ hx)
        · exact ih (cur ++ [' ']) (n + 1) lines x hx
      · exact ih cur n lines x hx
    · split
      · exact ih t t.length lines x hx
      · split
        · split
          · exact ih t t.length (lines ++ [rstrip cur]) x (List.mem_append_left _ hx)
          · exact ih _ _ lines x hx
        · split
          · exact ih t t.length (lines ++ [rstrip cur]) x (List.mem_append_left _ hx)
          · exact ih _ _ lines x hx

theorem fill_cur_extends (w : Nat) :
    ∀ (toks : List (List Char)) (cur : List Char) (n : Nat) (lines : List (List Char)),
      cur ≠ [] → ∃ l ∈ fillAux w cur n lines toks, ∃ ext, l = rstrip cur ++ ext := by
  intro toks
  induction toks with
  | nil =>
    intro cur n lines hne
    rw [fillAux_nil, if_neg hne]
    exact ⟨rstrip cur, List.mem_append_right _ (List.mem_singleton_self _),
      [], by rw [List.append_nil]⟩
  | cons t ts ih =>
    intro cur n lines hne
    rw [fillAux_cons]
    split
    · split
      · split
        · exact ⟨rstrip cur, fill_lines_mono w ts [] 0 (lines ++ [rstrip cur]) (rstrip cur)
            (List.mem_append_right _ (List.mem_singleton_self _)), [], by rw [List.append_nil]⟩
        · obtain ⟨l, hl, ext, hext⟩ := ih (cur ++ [' ']) (n + 1) lines (by simp)
          rw [rstrip_append_space] at hext
          exact ⟨l, hl, ext, hext⟩
      · exact ih cur n lines hne
    · split
      · split
        · exact ⟨rstrip cur, fill_lines_mono w ts t t.length (lines ++ [rstrip cur]) (rstrip cur)
            (List.mem_append_right _ (List.mem_singleton_self _)), [], by rw [List.append_nil]⟩
        · obtain ⟨l, hl, ext, hext⟩ := ih (cur ++ [] ++ t)
            (n + (([] : List Char).length + t.length)) lines (by simp [hne])
          obtain ⟨ext2, hext2⟩ := rstrip_append_ext cur (([] : List Char) ++ t)
          rw [← List.append_assoc] at hext2
          rw [hext2] at hext
          exact ⟨l, hl, ext2 ++ ext, by rw [hext, List.append_assoc]⟩
      · split
        · exact ⟨rstrip cur, fill_lines_mono w ts t t.length (lines ++ [rstrip cur]) (rstrip cur)
            (List.mem_append_right _ (List.mem_singleton_self _)), [], by rw [List.append_nil]⟩
        · obtain ⟨l, hl, ext, hext⟩ := ih (cur ++ [' '] ++ t)
            (n + (([' '] : List Char).length + t.length)) lines (by simp [hne])
          obtain ⟨ext2, hext2⟩ := rstrip_append_ext cur (([' '] : List Char) ++ t)
          rw [← List.append_assoc] at hext2
          rw [hext2] at hext
          exact ⟨l, hl, ext2 ++ ext, by rw [hext, List.append_assoc]⟩

theorem fill_token_whole (w : Nat) :
    ∀ (toks : List (List Char)) (cur : List Char) (n : Nat) (lines : List (List Char))
      (t : List Char), t ∈ toks → t ≠ [' '] → t ≠ [] → rstrip t = t →
      ∃ l ∈ fillAux w cur n lines toks, ∃ u v, l = u ++ t ++ v := by
  intro toks
  induction toks with
  | nil =>
    intro cur n lines t ht _ _ _
    exact absurd ht (List.not_mem_nil t)
  | cons t0 ts ih =>
    intro cur n lines t ht hsp hne hrs
    rcases List.mem_cons.mp ht with rfl | htail
    · rw [fillAux_cons, if_neg hsp]
      by_cases hcur : cur = []
      · rw [if_pos hcur]
        obtain ⟨l, hl, ext, hext⟩ := fill_cur_extends w ts t t.length lines hne
        rw [hrs] at hext
        exact ⟨l, hl, [], ext, by rw [hext]; rfl⟩
      · rw [if_neg hcur]
        split
        · split
          · obtain ⟨l, hl, ext, hext⟩ :=
              fill_cur_extends w ts t t.length (lines ++ [rstrip cur]) hne
            rw [hrs] at hext
            exact ⟨l, hl, [], ext, by rw [hext]; rfl⟩
          · have hcur' : (cur ++ ([] : List Char) ++ t) ≠ [] := by simp [hne]
            obtain ⟨l, hl, ext, hext⟩ := fill_cur_extends w ts (cur ++ [] ++ t)
              (n + (([] : List Char).length + t.length)) lines hcur'
            rw [rstrip_append_right_id _ t hrs hne] at hext
            exact ⟨l, hl, cur ++ [], ext, hext⟩
        · split
          · obtain ⟨l, hl, ext, hext⟩ :=
              fill_cur_extends w ts t t.length (lines ++ [rstrip cur]) hne
            rw [hrs] at hext
            exact ⟨l, hl, [], ext, by rw [hext]; rfl⟩
          · have hcur' : (cur ++ ([' '] : List Char) ++ t) ≠ [] := by simp [hne]
            obtain ⟨l, hl, ext, hext⟩ := fill_cur_extends w ts (cur ++ [' '] ++ t)
              (n + (([' '] : List Char).length + t.length)) lines hcur'
            rw [rstrip_append_right_id _ t hrs hne] at hext
            exact ⟨l, hl, cur ++ [' '], ext, hext⟩
    · rw [fillAux_cons]
      repeat' split
      all_goals exact ih _ _ _ t htail hsp hne hrs

theorem punct_exit (acc : List Char) :
    ∀ rest : List Char, (rest = [] ∨ ∃ c r2, rest = c :: r2 ∧ isPunct c = false) →
      acc ∈ tokRun (.punct acc) rest := by
  intro rest hrest
  rcases hrest with rfl | ⟨c, r2, rfl, hc⟩
  · exact List.mem_singleton_self acc
  · rw [tokRun_punct_cons, hc]
    simp only [Bool.false_eq_true, if_false]
    split
    · exact List.mem_cons_self _ _
    · split
      · exact List.mem_cons_self _ _
      · exact List.mem_cons_self _ _

theorem tokRun_math_mem :
    ∀ pre : List Char, '$' ∉ pre →
      ∀ st : TokState, (st = .spaces ∨ ∃ cur, st = .main cur) →
      ∀ mid punct rest : List Char, '$' ∉ mid →
      (∀ c ∈ punct, isPunct c = true) →
      (rest = [] ∨ ∃ c r2, rest = c :: r2 ∧ isPunct c = false) →
      ('$' :: (mid ++ '$' :: punct)) ∈
        tokRun st (pre ++ '$' :: (mid ++ '$' :: (punct ++ rest))) := by
  intro pre
  induction pre with
  | nil =>
    intro _ st hst mid punct rest hmid hpunct hrest
    have hcon : (mid ++ '$' :: (punct ++ rest)).contains '$' = true :=
      List.elem_iff.mpr (by simp)
    have hkey : ('$' :: (mid ++ '$' :: punct)) ∈
        tokRun (.span ['$']) (mid ++ '$' :: (punct ++ rest)) := by
      rw [tokRun_span_acc mid hmid ['$'] (punct ++ rest),
        tokRun_punct_acc punct hpunct _ rest]
      have hacc : (['$'] ++ (mid ++ ['$'])) ++ punct = '$' :: (mid ++ '$' :: punct) := by
        simp
      rw [hacc]
      exact punct_exit _ rest hrest
    rcases hst with rfl | ⟨cur, rfl⟩
    · rw [List.nil_append, tokRun_spaces_cons, pyIsSpace_dollar]
      simp only [Bool.false_eq_true, if_false, if_pos rfl, hcon, if_true]
      exact hkey
    · rw [List.nil_append, tokRun_main_cons, pyIsSpace_dollar]
      simp only [Bool.false_eq_true, if_false, if_pos rfl, hcon, if_true]
      exact List.mem_append_right _ hkey
  | cons c pre ih =>
    intro hpre st hst mid punct rest hmid hpunct hrest
    have hcd : c ≠ '$' := fun h => hpre (h ▸ List.mem_cons_self c pre)
    have hpre' : '$' ∉ pre := fun h => hpre (List.mem_cons_of_mem c h)
    have ihs := ih hpre' .spaces (Or.inl rfl) mid punct rest hmid hpunct hrest
    rcases hst with rfl | ⟨cur, rfl⟩
    · rw [List.cons_append, tokRun_spaces_cons]
      by_cases hs : pyIsSpace c = true
      · rw [if_pos hs]
        exact ihs
      · rw [if_neg hs, if_neg hcd]
        exact ih hpre' (.main [c]) (Or.inr ⟨[c], rfl⟩) mid punct rest hmid hpunct hrest
    · rw [List.cons_append, tokRun_main_cons]
      by_cases hs : pyIsSpace c = true
      · rw [if_pos hs]
        exact List.mem_append_right _ (List.mem_cons_of_mem _ ihs)
      · rw [if_neg hs, if_neg hcd]
        exact ih hpre' (.main (cur ++ [c])) (Or.inr ⟨_, rfl⟩) mid punct rest hmid hpunct hrest

/-- Claim C4: a `$...$` span (up to the first closing `$` of the line)
together with its attached trailing punctuation is one atomic token of
the wrapper: whenever a line of the input contains
`pre ++ "$" ++ mid ++ "$" ++ punct ++ rest` with no `$` in `pre` or
`mid`, `punct` drawn from the punctuation set and `rest` not opening
with further punctuation, some output line of `wrap_text` contains the
span and its punctuation contiguously, never split or separated. -/
theorem claim_C4 (t : String) (w : Nat) (line pre mid punct rest : List Char)
    (hline : line ∈ splitlines t.data)
    (hform : line = pre ++ '$' :: (mid ++ '$' :: (punct ++ rest)))
    (hpre : '$' ∉ pre) (hmid : '$' ∉ mid)
    (hpunct : ∀ c ∈ punct, isPunct c = true)
    (hrest : rest = [] ∨ ∃ c r2, rest = c :: r2 ∧ isPunct c = false) :
    ∃ out ∈ splitlines (wrapText t w).data,
      ∃ u v, out = u ++ ('$' :: (mid ++ '$' :: punct)) ++ v := by
  have hT : MathTok ('$' :: (mid ++ '$' :: punct)) := ⟨mid, punct, rfl, hmid, hpunct⟩
  have hN : NTok ('$' :: (mid ++ '$' :: punct)) := Or.inr (Or.inl hT)
  have hmem : ('$' :: (mid ++ '$' :: punct)) ∈ tokenize line := by
    rw [hform]
    exact tokRun_math_mem pre hpre (.main []) (Or.inr ⟨[], rfl⟩) mid punct rest
      hmid hpunct hrest
  obtain ⟨l, hl, u, v, huv⟩ := fill_token_whole w (tokenize line) [] 0 []
    ('$' :: (mid ++ '$' :: punct)) hmem (ntok_ne_sp _ hN) (ntok_ne_nil _ hN)
    (ntok_rstrip _ hN)
  refine ⟨l, ?_, u, v, huv⟩
  rw [splitlines_wrapText]
  exact List.mem_flatMap.mpr ⟨line, hline, hl⟩

/-- Witness for C4 on the text "see $x+y$, ok" at width 4: some output
line carries the token `$x+y$,` contiguously. -/
theorem claim_C4_witness :
    ∃ out ∈ splitlines (wrapText "see $x+y$, ok" 4).data,
      ∃ u v, out = u ++ ('$' :: ("x+y".data ++ '$' :: ",".data)) ++ v :=
  claim_C4 "see $x+y$, ok" 4 "see $x+y$, ok".data "see ".data "x+y".data ",".data
    " ok".data (by decide) (by decide) (by decide) (by decide) (by decide)
    (Or.inr ⟨' ', "ok".data, by decide, by decide⟩)

theorem flush_flatten (cur : List Char) :
    ((if cur = [] then [] else [cur]) : List (List Char)).flatten = cur := by
  by_cases h : cur = [] <;> simp [h]

theorem filter_sp_tok :
    (([' '] : List Char)).filter (fun c => !pyIsSpace c) = [] := by
  rw [List.filter_cons_of_neg]
  · rfl
  · rw [pyIsSpace_sp]
    simp

theorem tokRun_flatten_filter :
    ∀ (l : List Char) (st : TokState),
      ((tokRun st l).flatten).filter (fun c => !pyIsSpace c) =
        (stBuf st ++ l).filter (fun c => !pyIsSpace c) := by
  intro l
  induction l with
  | nil =>
    intro st
    cases st with
    | main cur =>
      rw [show tokRun (.main cur) ([] : List Char) = if cur = [] then [] else [cur] from rfl,
        show stBuf (.main cur) = cur from rfl, flush_flatten, List.append_nil]
    | spaces => rfl
    | span acc =>
      rw [show tokRun (.span acc) ([] : List Char) = [acc] from rfl,
        show stBuf (.span acc) = acc from rfl]
      simp
    | punct acc =>
      rw [show tokRun (.punct acc) ([] : List Char) = [acc] from rfl,
        show stBuf (.punct acc) = acc from rfl]
      simp
  | cons ch rest ih =>
    intro st
    cases st with
    | main cur =>
      rw [tokRun_main_cons]
      by_cases hs : pyIsSpace ch = true
      · rw [if_pos hs]
        have h1 := ih .spaces
        rw [show stBuf .spaces = [] from rfl, List.nil_append] at h1
        rw [List.flatten_append, flush_flatten, List.flatten_cons]
        rw [show stBuf (.main cur) = cur from rfl]
        simp [List.filter_append, pyIsSpace_sp, h1, hs]
      · rw [if_neg hs]
        have hs' : pyIsSpace ch = false := by rwa [Bool.not_eq_true] at hs
        by_cases hd : ch = '$'
        · subst hd
          rw [if_pos rfl]
          rw [List.flatten_append, flush_flatten, List.filter_append]
          rw [show stBuf (.main cur) = cur from rfl]
          by_cases hcon : rest.contains '$' = true
          · rw [if_pos hcon]
            have h1 := ih (.span ['$'])
            rw [show stBuf (.span ['$']) = ['$'] from rfl] at h1
            simp [h1, List.filter_append, hs']
          · rw [if_neg hcon]
            have h1 := ih (.main ['$'])
            rw [show stBuf (.main ['$']) = ['$'] from rfl] at h1
            simp [h1, List.filter_append, hs']
        · rw [if_neg hd]
          have h1 := ih (.main (cur ++ [ch]))
          rw [show stBuf (.main (cur ++ [ch])) = cur ++ [ch] from rfl] at h1
          rw [h1, show stBuf (.main cur) = cur from rfl]
          simp [List.filter_append, hs']
    | spaces =>
      rw [tokRun_spaces_cons, show stBuf .spaces = [] from rfl, List.nil_append]
      by_cases hs : pyIsSpace ch = true
      · rw [if_pos hs]
        have h1 := ih .spaces
        rw [show stBuf .spaces = [] from rfl, List.nil_append] at h1
        simp [h1, hs]
      · rw [if_neg hs]
        have hs' : pyIsSpace ch = false := by rwa [Bool.not_eq_true] at hs
        by_cases hd : ch = '$'
        · subst hd
          rw [if_pos rfl]
          by_cases hcon : rest.contains '$' = true
          · rw [if_pos hcon]
            have h1 := ih (.span ['$'])
            rw [show stBuf (.span ['$']) = ['$'] from rfl] at h1
            simp [h1, hs']
          · rw [if_neg hcon]
            have h1 := ih (.main ['$'])
            rw [show stBuf (.main ['$']) = ['$'] from rfl] at h1
            simp [h1, hs']
        · rw [if_neg hd]
          have h1 := ih (.main [ch])
          rw [show stBuf (.main [ch]) = [ch] from rfl] at h1
          simp [h1, hs']
    | span acc =>
      rw [tokRun_span_cons, show stBuf (.span acc) = acc from rfl]
      by_cases hd : ch = '$'
      · subst hd
        rw [if_pos rfl]
        have h1 := ih (.punct (acc ++ ['$']))
        rw [show stBuf (.punct (acc ++ ['$'])) = acc ++ ['$'] from rfl] at h1
        rw [h1]
        simp [List.filter_append]
      · rw [if_neg hd]
        have h1 := ih (.span (acc ++ [ch]))
        rw [show stBuf (.span (acc ++ [ch])) = acc ++ [ch] from rfl] at h1
        rw [h1]
        simp [List.filter_append]
    | punct acc =>
      rw [tokRun_punct_cons, show stBuf (.punct acc) = acc from rfl]
      by_cases hp : isPunct ch = true
      · rw [if_pos hp]
        have h1 := ih (.punct (acc ++ [ch]))
        rw [show stBuf (.punct (acc ++ [ch])) = acc ++ [ch] from rfl] at h1
        rw [h1]
        simp [List.filter_append]
      · rw [if_neg hp]
        by_cases hs : pyIsSpace ch = true
        · rw [if_pos hs]
          have h1 := ih .spaces
          rw [show stBuf .spaces = [] from rfl, List.nil_append] at h1
          rw [List.flatten_cons, List.flatten_cons]
          simp [List.filter_append, pyIsSpace_sp, h1, hs]
        · rw [if_neg hs]
          have hs' : pyIsSpace ch = false := by rwa [Bool.not_eq_true] at hs
          by_cases hd : ch = '$'
          · subst hd
            rw [if_pos rfl, List.flatten_cons, List.filter_append]
            by_cases hcon : rest.contains '$' = true
            · rw [if_pos hcon]
              have h1 := ih (.span ['$'])
              rw [show stBuf (.span ['$']) = ['$'] from rfl] at h1
              simp [h1, hs']
            · rw [if_neg hcon]
              have h1 := ih (.main ['$'])
              rw [show stBuf (.main ['$']) = ['$'] from rfl] at h1
              simp [h1, hs']
          · rw [if_neg hd, List.flatten_cons, List.filter_append]
            have h1 := ih (.main [ch])
            rw [show stBuf (.main [ch]) = [ch] from rfl] at h1
            simp [h1, hs']

theorem filter_rstrip (l : List Char) :
    (rstrip l).filter (fun c => !pyIsSpace c) = l.filter (fun c => !pyIsSpace c) := by
  obtain ⟨sps, hdec, hsp⟩ := rstrip_decomp l
  conv_rhs => rw [hdec]
  rw [List.filter_append]
  have h0 : sps.filter (fun c => !pyIsSpace c) = [] := by
    rw [List.filter_eq_nil_iff]
    intro c hc
    simp [hsp c hc]
  rw [h0, List.append_nil]

theorem fill_flatten_filter (w : Nat) :
    ∀ (toks : List (List Char)) (cur : List Char) (n : Nat) (lines : List (List Char)),
      ((fillAux w cur n lines toks).flatten).filter (fun c => !pyIsSpace c) =
        ((lines.flatten ++ cur) ++ toks.flatten).filter (fun c => !pyIsSpace c) := by
  intro toks
  induction toks with
  | nil =>
    intro cur n lines
    rw [fillAux_nil]
    by_cases h : cur = []
    · subst h
      rw [if_pos rfl]
      simp
    · rw [if_neg h]
      simp [List.filter_append, filter_rstrip]
  | cons t ts ih =>
    intro cur n lines
    rw [fillAux_cons]
    by_cases ht : t = [' ']
    · rw [if_pos ht]
      subst ht
      by_cases hc : cur ≠ [] ∧ endsSp cur = false
      · rw [if_pos hc]
        by_cases hw : n + 1 > w
        · rw [if_pos hw, ih]
          simp [List.filter_append, filter_rstrip, pyIsSpace_sp]
        · rw [if_neg hw, ih]
          simp [List.filter_append, pyIsSpace_sp]
      · rw [if_neg hc, ih]
        simp [List.filter_append, pyIsSpace_sp]
    · rw [if_neg ht]
      by_cases hc : cur = []
      · rw [if_pos hc]
        subst hc
        rw [ih]
        simp [List.filter_append]
      · rw [if_neg hc]
        by_cases he : endsSp cur = true
        · rw [if_pos he]
          by_cases hw : n + (([] : List Char).length + t.length) > w
          · rw [if_pos hw, ih]
            simp [List.filter_append, filter_rstrip]
          · rw [if_neg hw, ih]
            simp [List.filter_append]
        · rw [if_neg he]
          by_cases hw : n + (([' '] : List Char).length + t.length) > w
          · rw [if_pos hw, ih]
            simp [List.filter_append, filter_rstrip]
          · rw [if_neg hw, ih]
            simp [List.filter_append, pyIsSpace_sp]

theorem wrapLine_flatten_filter (w : Nat) (l : List Char) :
    ((wrapLine w l).flatten).filter (fun c => !pyIsSpace c) =
      l.filter (fun c => !pyIsSpace c) := by
  show ((fillAux w [] 0 [] (tokenize l)).flatten).filter _ = _
  rw [fill_flatten_filter]
  have h := tokRun_flatten_filter l (.main [])
  rw [show stBuf (.main []) = [] from rfl, List.nil_append] at h
  simp only [List.flatten_nil, List.nil_append, List.append_nil]
  exact h

theorem splitlinesAux_flatten :
    ∀ (l : List Char) (sk : Bool) (acc : List Char),
      (splitlinesAux sk acc l).flatten =
        acc.reverse ++ l.filter (fun c => !isBreak c) := by
  intro l
  induction l with
  | nil =>
    intro sk acc
    rw [splitlinesAux_nil]
    by_cases h : acc = []
    · subst h
      rw [if_pos rfl]
      rfl
    · rw [if_neg h]
      simp
  | cons c rest ih =>
    intro sk acc
    rw [splitlinesAux_cons]
    by_cases h1 : sk = true ∧ c = '\n'
    · rw [if_pos h1]
      obtain ⟨_, hc⟩ := h1
      subst hc
      rw [ih false acc, List.filter_cons_of_neg]
      rw [show isBreak '\n' = true from rfl]
      simp
    · rw [if_neg h1]
      by_cases h2 : c = '\r'
      · rw [if_pos h2]
        subst h2
        rw [List.flatten_cons, ih true [], List.filter_cons_of_neg]
        · simp
        · rw [show isBreak '\r' = true from rfl]
          simp
      · rw [if_neg h2]
        by_cases h3 : isBreak c = true
        · rw [if_pos h3]
          rw [List.flatten_cons, ih false [], List.filter_cons_of_neg]
          · simp
          · rw [h3]
            simp
        · rw [if_neg h3]
          have h3' : isBreak c = false := by rwa [Bool.not_eq_true] at h3
          rw [ih false (c :: acc), List.filter_cons_of_pos]
          · simp
          · rw [h3']
            simp

theorem splitlines_flatten_filter (l : List Char) :
    ((splitlines l).flatten).filter (fun c => !pyIsSpace c) =
      l.filter (fun c => !pyIsSpace c) := by
  rw [show splitlines l = splitlinesAux false [] l from rfl, splitlinesAux_flatten]
  rw [List.reverse_nil, List.nil_append, List.filter_filter]
  apply List.filter_congr
  intro a _
  by_cases hs : pyIsSpace a = true
  · simp [hs]
  · have hs' : pyIsSpace a = false := by rwa [Bool.not_eq_true] at hs
    have hb : isBreak a = false := by
      by_cases h : isBreak a = true
      · rw [isBreak_space a h] at hs'
        exact absurd hs' (by simp)
      · rwa [Bool.not_eq_true] at h
    simp [hs', hb]

theorem joinNl_filter :
    ∀ ls : List (List Char),
      (joinNl ls).filter (fun c => !pyIsSpace c) =
        (ls.flatten).filter (fun c => !pyIsSpace c) := by
  intro ls
  induction ls with
  | nil => rfl
  | cons l ls ih =>
    cases ls with
    | nil => simp [joinNl]
    | cons l2 ls2 =>
      show (l ++ '\n' :: joinNl (l2 :: ls2)).filter _ = _
      rw [List.filter_append, List.filter_cons_of_neg, ih, List.flatten_cons,
        List.filter_append]
      · simp [List.flatten_cons, List.filter_append]
      · rw [show pyIsSpace '\n' = true from rfl]
        simp

theorem wrapText_filter (t : String) (w : Nat) :
    (wrapText t w).data.filter (fun c => !pyIsSpace c) =
      t.data.filter (fun c => !pyIsSpace c) := by
  rw [wrapText_data, joinNl_filter]
  have hmain : ∀ ls : List (List Char),
      ((ls.flatMap (fun l => wrapLine w l)).flatten).filter (fun c => !pyIsSpace c) =
        (ls.flatten).filter (fun c => !pyIsSpace c) := by
    intro ls
    induction ls with
    | nil => rfl
    | cons l ls ih =>
      rw [List.flatMap_cons, List.flatten_append, List.filter_append, ih,
        wrapLine_flatten_filter, List.flatten_cons, List.filter_append]
  rw [hmain, splitlines_flatten_filter]

/-- Claim C10: `wrap_text` is total and treats an unmatched `$` as plain
text.  (1) No text is ever dropped: for every input string and width the
output keeps exactly the non-whitespace characters of the input, in
order.  (2) A line consisting of an unmatched `$` followed by plain text
tokenizes to the single plain token holding that `$`.  (3) In the
tokenizer, a `$` whose remaining line holds no closing `$` flushes the
current token and continues in plain-text mode with `current = "$"` —
no span state is entered and no error path exists. -/
theorem claim_C10 :
    (∀ (t : String) (w : Nat),
      (wrapText t w).data.filter (fun c => !pyIsSpace c) =
        t.data.filter (fun c => !pyIsSpace c)) ∧
    (∀ tl : List Char, (∀ c ∈ tl, pyIsSpace c = false ∧ c ≠ '$') →
      tokenize ('$' :: tl) = ['$' :: tl]) ∧
    (∀ cur rest : List Char, rest.contains '$' = false →
      tokRun (.main cur) ('$' :: rest) =
        (if cur = [] then [] else [cur]) ++ tokRun (.main ['$']) rest) := by
  refine ⟨wrapText_filter, ?_, ?_⟩
  · intro tl h
    exact tokenize_dollar ('$' :: tl) ⟨tl, rfl, h⟩
  · intro cur rest hcon
    rw [tokRun_main_cons, pyIsSpace_dollar]
    simp only [Bool.false_eq_true, if_false, hcon, eq_self_iff_true, if_true]

/-- Witness for C10: no character of "a $b c" is lost at width 2; the
line `$ab` is one plain token; on `$y z` with no closing `$` the
tokenizer flushes `x` and continues in plain-text mode. -/
theorem claim_C10_witness :
    ((wrapText "a $b c" 2).data.filter (fun c => !pyIsSpace c) =
      ("a $b c").data.filter (fun c => !pyIsSpace c)) ∧
    tokenize ('$' :: "ab".data) = ['$' :: "ab".data] ∧
    tokRun (.main "x".data) ('$' :: "y z".data) =
      (if "x".data = [] then [] else ["x".data]) ++ tokRun (.main ['$']) "y z".data :=
  ⟨claim_C10.1 "a $b c" 2,
   claim_C10.2.1 "ab".data (by decide),
   claim_C10.2.2 "x".data "y z".data (by decide)⟩

/-- Counterexample to C7 as stated: the blank line between "a" and "b"
gives rise to no line at its place in the output — `wrap_text` maps
"a\n\nb" at width 10 to "a\nb", and the three input lines become two
output lines. -/
theorem claim_C7_counterexample :
    wrapText "a\n\nb" 10 = "a\nb" ∧
    splitlines ("a\n\nb").data = [['a'], [], ['b']] ∧
    splitlines ((wrapText "a\n\nb" 10)).data = [['a'], ['b']] := by
  refine ⟨?_, by decide, by decide⟩
  apply String.ext
  decide

/-- Claim C7, amended: the input is split on line breaks, each line is
wrapped independently and the outputs are rejoined with line breaks —
the output's line list is exactly the concatenation of the wraps of the
input's lines — and every input line holding at least one non-whitespace
character yields at least one output line; but an input line of only
whitespace (in particular a blank line between two non-blank lines)
wraps to zero output lines and vanishes. -/
theorem claim_C7 (t : String) (w : Nat) :
    splitlines (wrapText t w).data =
      (splitlines t.data).flatMap (fun l => wrapLine w l) ∧
    ∀ l ∈ splitlines t.data, (∃ c ∈ l, pyIsSpace c = false) → wrapLine w l ≠ [] := by
  refine ⟨splitlines_wrapText t w, ?_⟩
  intro l _ hc hnil
  have h := wrapLine_flatten_filter w l
  rw [hnil] at h
  obtain ⟨c, hcl, hcs⟩ := hc
  have hmem : c ∈ l.filter (fun c => !pyIsSpace c) :=
    List.mem_filter.mpr ⟨hcl, by simp [hcs]⟩
  rw [← h] at hmem
  simp at hmem

/-- Witness for C7 on the text "a b" at width 2: the output's lines are
the wrap of the single input line, and that non-blank line wraps to at
least one line. -/
theorem claim_C7_witness :
    (splitlines (wrapText "a b" 2).data =
      (splitlines ("a b").data).flatMap (fun l => wrapLine 2 l)) ∧
    wrapLine 2 ("a b").data ≠ [] :=
  ⟨(claim_C7 "a b" 2).1,
   (claim_C7 "a b" 2).2 ("a b").data (by decide) ⟨'a', by decide, by decide⟩⟩

end MarkLatex
